import Mathlib

/-!
Verification development for the schema-driven character builder engine in
src/builder.js (a single-file library built on ramda).

Shallow embedding notes.

Data model. A schema definition is a tree: a map of field names to field
specs, where a spec either carries a literal-type marker (the STRING or
NUMBER symbol from OptionLiterals) or an enumerated option map from option
names to nested schema nodes. A node is represented by its fields map
(a node without a fields key behaves as an empty map, since ramda keys of
undefined is the empty list). Field and option maps of JS objects are
modelled as association lists in insertion order; JS object key order is
insertion order, which these lists preserve.

Dot-joined path strings (the keys of this.choices, the results of fields
and the argument of choose, get, options) are modelled as lists of
segments (Path = List String). The encoding is a bijection as long as all
names are nonempty and dot-free; the WellFormed predicate below records
exactly that, and theorems about general schemas assume it. The source's
split and join on the period are then identities of this encoding and
disappear. ramda reject(isEmpty, ...) inside choiceConfig only fires on
empty segments, which well-formedness rules out.

Error channels. JS property access on undefined throws a TypeError; every
spot in the source where this can happen is modelled with an Option or
Except result whose none or error value means exactly that thrown
TypeError (BuildErr.jsError in the constructor). ramda path is nil-safe
and never throws; prop is modelled nil-safe as in current ramda. The
worklist recursion of missing is modelled with an explicit depth budget
(fuel); the budget passed by missingQ exceeds the deepest level the
source's recursion can reach (one level per recorded path segment), so
exhaustion never occurs on the runs the source performs.

Values. A chosen value is a JS string or number (JSValue); typeof
dispatch and the use of a value as a JS property key (its toString) are
modelled explicitly.
-/

namespace Persona

/-- A JS value that can be stored in a ChoiceSet: a string or a number. -/
inductive JSValue : Type where
  | str (s : String)
  | num (n : Int)
deriving DecidableEq

/-- The two literal-type markers of OptionLiterals (opaque symbols in JS). -/
inductive LitKind : Type where
  | STRING
  | NUMBER
deriving DecidableEq

/-- A FieldSpec: options is either a literal-type marker or an enumerated
option map from option name to the nested node's fields map; plus the
required flag (absent modelled as false, which propEq with true cannot
distinguish) and the optional validation predicate (its JS truthiness). -/
inductive FieldSpec : Type where
  | lit (k : LitKind) (req : Bool) (vrule : Option (JSValue → Bool))
  | enm (opts : List (String × List (String × FieldSpec))) (req : Bool)
        (vrule : Option (JSValue → Bool))

/-- The fields map of a schema node. -/
abbrev Fields := List (String × FieldSpec)

/-- A dot-joined choice path, as its list of segments. -/
abbrev Path := List String

/-- this.choices: a JS object keyed by path strings, in insertion order. -/
abbrev Choices := List (Path × JSValue)

/-- Lookup in a JS-object-as-association-list (first matching key). -/
def lookupA {α : Type} : List (String × α) → String → Option α
  | [], _ => none
  | (k, v) :: rest, key => if k = key then some v else lookupA rest key

/-- this.choices[key]. -/
def jsGet : Choices → Path → Option JSValue
  | [], _ => none
  | (k, v) :: rest, key => if k = key then some v else jsGet rest key

/-- Setting a key on a JS object: an existing key keeps its position and is
overwritten in place, a new key is appended. This is the effect of
ramda merge(this.choices, single-key object) used by choose. -/
def jsSet : Choices → Path → JSValue → Choices
  | [], key, v => [(key, v)]
  | (k0, v0) :: rest, key, v =>
    if k0 = key then (key, v) :: rest else (k0, v0) :: jsSet rest key v

/-- Object.keys / ramda keys of an association list. -/
def keysOf {κ α : Type} (l : List (κ × α)) : List κ := l.map (fun kv => kv.1)

/-- Using a JS value as a property key (number keys are stringified). -/
def valueKey : JSValue → String
  | .str s => s
  | .num n => toString n

/-- typeof for the modelled values. -/
def typeofStr : JSValue → String
  | .str _ => "string"
  | .num _ => "number"

/-- The required flag of a spec (propEq with required, true). -/
def FieldSpec.req : FieldSpec → Bool
  | .lit _ r _ => r
  | .enm _ r _ => r

/-- The validation predicate of a spec, if declared. -/
def FieldSpec.vrule : FieldSpec → Option (JSValue → Bool)
  | .lit _ _ f => f
  | .enm _ _ f => f

/-- contains(f.options, values(OptionLiterals)): the spec carries a
literal-type marker. -/
def FieldSpec.isLit : FieldSpec → Bool
  | .lit _ _ _ => true
  | .enm _ _ _ => false

/-!
fields(): the ideaFn recursion of GeneratedBuilder.fields. At each node it
emits the breadcrumb path followed by the per-field emissions in schema
order; a literal field or an enumerated field without a recorded choice is
emitted as a leaf path; an enumerated field with a recorded choice
recursively emits the chosen option's node (the source reads
options[choices[path]].fields, so a bad recorded option name means
reading fields of undefined: that TypeError is the none result).
-/

mutual
/-- Emissions for one fields map in schema order (the map inside ideaFn). -/
def ideaKids (cs : Choices) : Fields → Path → Option (List Path)
  | [], _ => some []
  | (key, spec) :: rest, bc =>
    match ideaOne cs key spec bc, ideaKids cs rest bc with
    | some here, some more => some (here ++ more)
    | _, _ => none

/-- Emission for a single field: leaf path, or recursive descent into the
chosen option's node. -/
def ideaOne (cs : Choices) (key : String) (spec : FieldSpec) (bc : Path) :
    Option (List Path) :=
  match spec with
  | .lit _ _ _ => some [bc ++ [key]]
  | .enm opts _ _ =>
    match jsGet cs (bc ++ [key]) with
    | none => some [bc ++ [key]]
    | some v => ideaOpts cs (valueKey v) opts (bc ++ [key])

/-- options[chosen]: find the chosen option's node and recurse (ideaFn on
that node); a missing option name is the TypeError case. -/
def ideaOpts (cs : Choices) (chosen : String) :
    List (String × Fields) → Path → Option (List Path)
  | [], _ => none
  | (o, node) :: rest, p =>
    if o = chosen then (ideaKids cs node p).map (fun kids => p :: kids)
    else ideaOpts cs chosen rest p
end

/-- ideaFn of the source: the flattened [breadcrumb, per-field emissions]. -/
def ideaFn (cs : Choices) (flds : Fields) (bc : Path) : Option (List Path) :=
  (ideaKids cs flds bc).map (fun kids => bc :: kids)

/-- fields(): tail(ideaFn(definition)) removes the synthetic root path. -/
def fieldsQ (cs : Choices) (defn : Fields) : Option (List Path) :=
  (ideaFn cs defn []).map List.tail

/-- requires(): keys of the root fields whose spec has required === true. -/
def requiresQ (defn : Fields) : List String :=
  keysOf (defn.filter (fun kv => kv.2.req = true))

/-!
_choiceConfig: resolves a path against definition.fields, descending for
each ancestor segment a through fields[a].options[this.choices[a]].fields.
Note the source looks the ancestor choice up under the single segment
name a, not under the full path prefix; this is modelled exactly.
-/

/-- The descent of _choiceConfig for a nonempty path (ancestors, target).
A missing field, a literal ancestor (property steps through a symbol), a
missing option (including the choices[a] lookup coming back undefined, in
which case JS reads the property named undefined) all end in the nil-safe
undefined result of ramda path. -/
def walkCC (cs : Choices) : Fields → List String → String → Option FieldSpec
  | fs, [], t => lookupA fs t
  | fs, a :: rest, t =>
    match lookupA fs a with
    | none => none
    | some (.lit _ _ _) => none
    | some (.enm opts _ _) =>
      let vk := match jsGet cs [a] with
        | some v => valueKey v
        | none => "undefined"
      match lookupA opts vk with
      | none => none
      | some node => walkCC cs node rest t

/-- Result of _choiceConfig: the root fields map for the empty path (path
with an empty key list applied to definition.fields), a resolved spec, or
the undefined result. -/
inductive CCRes : Type where
  | rootMap (fs : Fields)
  | found (s : FieldSpec)
  | notFound

/-- _choiceConfig(field). -/
def choiceConfig (cs : Choices) (defn : Fields) : Path → CCRes
  | [] => .rootMap defn
  | s :: rest =>
    match walkCC cs defn ((s :: rest).dropLast) ((s :: rest).getLast (by simp)) with
    | some sp => .found sp
    | none => .notFound

/-- Result of options(field): the literal marker, the option-name keys, or
undefined when the path does not resolve (nil-safe prop followed by a cond
with no matching branch). For the empty path the source reads the options
property of the root fields map itself, undefined for schemas that do not
name a root field options; theorems assume well-formed schemas, for which
this corner is irrelevant. -/
inductive OptionsRes : Type where
  | litMarker (k : LitKind)
  | keyList (ks : List String)
  | notFound
deriving DecidableEq

/-- options(field). -/
def optionsQ (cs : Choices) (defn : Fields) (p : Path) : OptionsRes :=
  match choiceConfig cs defn p with
  | .found (.lit k _ _) => .litMarker k
  | .found (.enm opts _ _) => .keyList (keysOf opts)
  | .notFound => .notFound
  | .rootMap _ => .notFound

/-- get(field): direct lookup, no validation. -/
def getQ (cs : Choices) (p : Path) : Option JSValue := jsGet cs p

/-!
The constructor: applies each entry of values in iteration order. Per
entry: membership in this.fields() (InvalidField), then the spec from
_choiceConfig (reading options of undefined when resolution failed is the
TypeError case jsError), then the typeof switch (literal-type mismatch or
option-name membership, InvalidChoice with a reason), then the validation
predicate (InvalidChoice without reason), then set.
-/

/-- Equality of constructor results is decidable (needed to evaluate the
model on concrete inputs). -/
instance {e a : Type} [DecidableEq e] [DecidableEq a] :
    DecidableEq (Except e a)
  | .ok x, .ok y =>
    if h : x = y then .isTrue (by rw [h]) else
      .isFalse (by intro hc; injection hc with hc; exact h hc)
  | .error x, .error y =>
    if h : x = y then .isTrue (by rw [h]) else
      .isFalse (by intro hc; injection hc with hc; exact h hc)
  | .ok x, .error y => .isFalse (by intro hc; cases hc)
  | .error x, .ok y => .isFalse (by intro hc; cases hc)

/-- The two error classes of builder.js, plus the uncaught TypeError that
escapes when the code reads a property of undefined. -/
inductive BuildErr : Type where
  | invalidField (p : Path)
  | invalidChoice (p : Path) (v : JSValue) (reason : Option String)
  | jsError
deriving DecidableEq

/-- Membership test of the enumerated branch:
contains(value, keys(validOptions)), ramda equals of a value and a string
key. -/
def valInKeys (opts : List (String × Fields)) (v : JSValue) : Bool :=
  match v with
  | .str s => (keysOf opts).contains s
  | .num _ => false

/-- The reason string of the enumerated mismatch. -/
def oneOfReason (opts : List (String × Fields)) : String :=
  "must be one of [" ++ String.intercalate ", " (keysOf opts) ++ "]"

/-- One iteration of the constructor loop on (field, value). -/
def applyOne (defn : Fields) (cs : Choices) (p : Path) (v : JSValue) :
    Except BuildErr Choices :=
  match fieldsQ cs defn with
  | none => .error .jsError
  | some fl =>
    if p ∈ fl then
      match choiceConfig cs defn p with
      | .notFound => .error .jsError
      | .rootMap _ => .error .jsError
      | .found spec =>
        match spec with
        | .lit .STRING _ vr =>
          if typeofStr v = "string" then
            match vr with
            | some f => if f v then .ok (jsSet cs p v)
                        else .error (.invalidChoice p v none)
            | none => .ok (jsSet cs p v)
          else .error (.invalidChoice p v (some "must be string"))
        | .lit .NUMBER _ vr =>
          if typeofStr v = "number" then
            match vr with
            | some f => if f v then .ok (jsSet cs p v)
                        else .error (.invalidChoice p v none)
            | none => .ok (jsSet cs p v)
          else .error (.invalidChoice p v (some "must be number"))
        | .enm opts _ vr =>
          if valInKeys opts v then
            match vr with
            | some f => if f v then .ok (jsSet cs p v)
                        else .error (.invalidChoice p v none)
            | none => .ok (jsSet cs p v)
          else .error (.invalidChoice p v (some (oneOfReason opts)))
    else .error (.invalidField p)

/-- The constructor loop over the remaining entries, threading choices. -/
def construct (defn : Fields) : List (Path × JSValue) → Choices →
    Except BuildErr Choices
  | [], cs => .ok cs
  | (p, v) :: rest, cs =>
    match applyOne defn cs p v with
    | .error e => .error e
    | .ok cs2 => construct defn rest cs2

/-- new GeneratedBuilder(values): runs the loop from the empty ChoiceSet.
Entries are the object's key-value pairs in iteration order (unique keys). -/
def constructB (defn : Fields) (l : List (Path × JSValue)) :
    Except BuildErr Choices :=
  construct defn l []

/-- choose(field, value): re-validates merge(this.choices, single entry)
from scratch; on success the result is the new builder's ChoiceSet. -/
def choose (defn : Fields) (cs : Choices) (p : Path) (v : JSValue) :
    Except BuildErr Choices :=
  constructB defn (jsSet cs p v)

/-!
missing(): the worklist recursion findMissingFor. For a worklist path c,
the applicable fields map is the root map when c is the root without a
recorded choice, and options[choices[c]].fields of the resolved spec when
a choice is recorded at c. Unset full paths of that map are emitted; the
recorded non-literal ones are explored recursively. A map that comes back
undefined (unresolved config, literal spec, or bad option name) makes
reject(literalChoice, undefined) dispatch on undefined and throw: the
error result. The recursion is driven by a depth budget; each level deeper
requires a recorded path one segment longer, so the budget chosen by
missingQ (beyond the total length of all recorded paths) is never
exhausted on the runs the source performs. A worklist path other than the
root never lacks a recorded choice by construction of the worklist; that
dead branch is modelled as an empty map.
-/

/-- The applicable fields map at worklist path c, or none where the source
ends up handing undefined to reject. -/
def missingFieldsAt (cs : Choices) (defn : Fields) (c : Path) : Option Fields :=
  match jsGet cs c, choiceConfig cs defn c with
  | none, .rootMap fs => some fs
  | none, _ => some []
  | some v, .found (.enm opts _ _) => lookupA opts (valueKey v)
  | some _, .found (.lit _ _ _) => none
  | some _, .rootMap _ => none
  | _, .notFound => none

/-- One worklist level: emit the unset full paths, recurse (via the deeper
continuation) on recorded non-literal ones, in worklist order. -/
def missingLevel (cs : Choices) (defn : Fields)
    (deeper : List Path → Except Unit (List Path)) :
    List Path → Except Unit (List Path)
  | [] => .ok []
  | c :: rest =>
    match missingFieldsAt cs defn c with
    | none => .error ()
    | some fs =>
      let full := fun k => c ++ [k]
      let missingChoices :=
        ((keysOf fs).map full).filter (fun q => jsGet cs q = none)
      let nonLit := keysOf (fs.filter (fun kv => kv.2.isLit = false))
      let madeChoices :=
        (nonLit.map full).filter (fun q => (jsGet cs q).isNone = false)
      match deeper madeChoices, missingLevel cs defn deeper rest with
      | .ok ds, .ok ms => .ok (missingChoices ++ ds ++ ms)
      | .error e, _ => .error e
      | _, .error e => .error e

/-- The worklist recursion with a depth budget. -/
def missingGo (cs : Choices) (defn : Fields) : Nat → List Path →
    Except Unit (List Path)
  | 0, wl => match wl with
    | [] => .ok []
    | _ :: _ => .error ()
  | fuel + 1, wl => missingLevel cs defn (missingGo cs defn fuel) wl

/-- A depth budget beyond any level the recursion can reach: recursion at
level d needs a recorded path of d segments. -/
def missingFuel (cs : Choices) : Nat :=
  cs.foldr (fun kv a => kv.1.length + 1 + a) 2

/-- missing(): findMissingFor(['']). -/
def missingQ (cs : Choices) (defn : Fields) : Except Unit (List Path) :=
  missingGo cs defn (missingFuel cs) [[]]

/-!
Well-formed schemas: every field and option name is nonempty, contains no
period and is not the string undefined, and the names of each map are
distinct (they are keys of one JS object literal). Nonempty and dot-free
names make the path-string encoding of Path a bijection (and make
reject(isEmpty) inside _choiceConfig a no-op); excluding the name
undefined keeps the undefined-key property lookup of a missing ancestor
choice from ever finding an option.
-/

/-- A well-formed field or option name (the period test is on the
character list of the name). -/
def goodName (s : String) : Bool :=
  s ≠ "" && (s.data.contains '.') = false && s ≠ "undefined"

mutual
/-- Well-formedness of a fields map. -/
def wfFields : Fields → Bool
  | [] => true
  | (k, spec) :: rest =>
    goodName k && (lookupA rest k).isNone && wfSpec spec && wfFields rest

/-- Well-formedness of a spec. -/
def wfSpec : FieldSpec → Bool
  | .lit _ _ _ => true
  | .enm opts _ _ => wfOpts opts

/-- Well-formedness of an option map. -/
def wfOpts : List (String × Fields) → Bool
  | [] => true
  | (o, node) :: rest =>
    goodName o && (lookupA rest o).isNone && wfFields node && wfOpts rest
end

/-- The typeof switch of the constructor: literal-type match or
option-name membership. -/
def typeCheckOk (spec : FieldSpec) (v : JSValue) : Bool :=
  match spec with
  | .lit .STRING _ _ => typeofStr v == "string"
  | .lit .NUMBER _ _ => typeofStr v == "number"
  | .enm opts _ _ => valInKeys opts v

/-- The validation-predicate step of the constructor. -/
def vruleOk (spec : FieldSpec) (v : JSValue) : Bool :=
  match spec.vrule with
  | some f => f v
  | none => true

/-- The full value check of the constructor for a resolved spec. -/
def valueOkFor (spec : FieldSpec) (v : JSValue) : Bool :=
  typeCheckOk spec v && vruleOk spec v

/-- The schema node that the fields() recursion reaches at breadcrumb bc:
the root map at the root, and one step per enumerated field with a
recorded (full-path) choice naming an existing option. -/
inductive NodeAt (cs : Choices) (defn : Fields) : Path → Fields → Prop where
  | root : NodeAt cs defn [] defn
  | step (bc q : Path) (fs : Fields) (key : String)
      (opts : List (String × Fields)) (r : Bool) (vr : Option (JSValue → Bool))
      (v : JSValue) (node : Fields) :
      NodeAt cs defn bc fs →
      lookupA fs key = some (.enm opts r vr) →
      q = bc ++ [key] →
      jsGet cs q = some v →
      lookupA opts (valueKey v) = some node →
      NodeAt cs defn q node

/-- A valid builder: a ChoiceSet with object-unique keys that re-validates
to itself (every builder that construct or choose actually returns is of
this shape, and choose re-runs exactly this validation). -/
def ValidB (defn : Fields) (cs : Choices) : Prop :=
  (keysOf cs).Nodup ∧ constructB defn cs = .ok cs

/-- cs2 preserves every recorded entry of cs1. -/
def ChoicesLe (cs1 cs2 : Choices) : Prop :=
  ∀ k v, jsGet cs1 k = some v → jsGet cs2 k = some v

/-- Invariant of the worklist entries of the missing() recursion on a
valid builder: the entry is the root or a recorded path, the tree walk
reaches a node there, and the applicable fields map the source computes
for it is exactly that node. -/
def WLN (cs : Choices) (defn : Fields) (c : Path) : Prop :=
  (c = [] ∨ (jsGet cs c).isSome = true) ∧
  ∃ fs, NodeAt cs defn c fs ∧ missingFieldsAt cs defn c = some fs

/-!
The scenario schema of the spec: a required literal field name (STRING)
and an enumerated field class with options warrior (no subfields) and
mage (required STRING subfield spell).
-/

/-- The scenario schema. -/
def scenarioDefn : Fields :=
  [("name", .lit .STRING true none),
   ("class", .enm
      [("warrior", []),
       ("mage", [("spell", .lit .STRING true none)])]
      true none)]

/-- The scenario ChoiceSet after choosing mage for class. -/
def scenarioCS : Choices := [(["class"], .str "mage")]

/-- The scenario ChoiceSet after also choosing the spell. -/
def scenarioCS2 : Choices :=
  [(["class"], .str "mage"), (["class", "spell"], .str "fireball")]

/-!
Witness schemas for the refuted claims.

advDefn reuses the nested field name b at the root. _choiceConfig looks
ancestor choices up by their single segment name, so the three-segment
path a.b.c resolves through the root choice for b instead of the recorded
choice for a.b: the constructor then accepts a value for a.b.c that is
validated against the wrong subtree, and fields() and missing(), which
descend through the recorded full-path choices, afterwards hit a missing
option node and throw.

deep3 is a plain three-level schema: after choosing a and a.b, the path
a.b.c is listed by fields() but _choiceConfig cannot resolve it (the
choice for the middle ancestor is recorded under a.b, looked up under b),
so options returns undefined and choose dies with a TypeError.

vDefn carries a validation predicate that rejects every value, so a
choice of a listed option still fails.
-/

/-- Adversarial schema with the nested field name b reused at the root. -/
def advDefn : Fields :=
  [("a", .enm [("x",
      [("b", .enm [("y", [("c", .lit .STRING false none)]),
                   ("z", [("c", .enm [("bar", [])] false none)])] false none)])]
    false none),
   ("b", .enm [("y", []), ("z", [])] false none)]

/-- The entries accepted one by one by the constructor on advDefn. -/
def advL : List (Path × JSValue) :=
  [(["a"], .str "x"), (["b"], .str "y"), (["a", "b"], .str "z"),
   (["a", "b", "c"], .str "foo")]

/-- A plain three-level schema. -/
def deep3 : Fields :=
  [("a", .enm [("x",
      [("b", .enm [("y",
          [("c", .enm [("w", [])] false none)])] false none)])] false none)]

/-- Choices for deep3 after choosing a and a.b. -/
def d3cs : Choices := [(["a"], .str "x"), (["a", "b"], .str "y")]

/-- A root enumerated field with an always-false validation predicate. -/
def vDefn : Fields :=
  [("class", .enm [("warrior", []), ("mage", [])] false
      (some (fun _ => false)))]

/-!
Association-list facts.
-/

theorem keysOf_cons {κ α : Type} {e : κ × α} {l : List (κ × α)} :
    keysOf (e :: l) = e.1 :: keysOf l := rfl

theorem mem_keysOf {κ α : Type} {k : κ} {v : α} {l : List (κ × α)}
    (h : (k, v) ∈ l) : k ∈ keysOf l :=
  List.mem_map_of_mem _ h

theorem lookupA_mem {α : Type} {l : List (String × α)} {k : String} {v : α}
    (h : lookupA l k = some v) : (k, v) ∈ l := by
  induction l with
  | nil => exact absurd h (by simp [lookupA])
  | cons e rest ih =>
    obtain ⟨k0, v0⟩ := e
    rw [lookupA] at h
    split at h
    · next heq =>
      injection h with hv
      subst heq
      subst hv
      exact List.mem_cons_self _ _
    · exact List.mem_cons_of_mem _ (ih h)

theorem lookupA_eq_none {α : Type} {l : List (String × α)} {k : String} :
    lookupA l k = none ↔ k ∉ keysOf l := by
  induction l with
  | nil => simp [lookupA, keysOf]
  | cons e rest ih =>
    obtain ⟨k0, v0⟩ := e
    rw [lookupA]
    split
    · next heq =>
      subst heq
      simp [keysOf]
    · next hne =>
      rw [ih]
      simp only [keysOf, List.map_cons, List.mem_cons]
      constructor
      · intro h hm
        rcases hm with hm | hm
        · exact hne hm.symm
        · exact h hm
      · intro h hm
        exact h (Or.inr hm)

theorem lookupA_isSome_of_mem_keys {α : Type} {l : List (String × α)}
    {k : String} (h : k ∈ keysOf l) : ∃ v, lookupA l k = some v := by
  match hl : lookupA l k with
  | some v => exact ⟨v, rfl⟩
  | none => exact absurd h (lookupA_eq_none.mp hl)

theorem lookupA_of_mem_nodup {α : Type} {l : List (String × α)} {k : String}
    {v : α} (hnd : (keysOf l).Nodup) (h : (k, v) ∈ l) :
    lookupA l k = some v := by
  induction l with
  | nil => exact absurd h (by simp)
  | cons e rest ih =>
    obtain ⟨k0, v0⟩ := e
    have hnd' : k0 ∉ keysOf rest ∧ (keysOf rest).Nodup := by
      simpa [keysOf] using hnd
    rcases List.mem_cons.mp h with h0 | h0
    · rw [show k = k0 from congrArg Prod.fst h0,
        show v = v0 from congrArg Prod.snd h0]
      rw [lookupA, if_pos rfl]
    · have hk : k0 ≠ k := by
        intro hkk
        subst hkk
        exact hnd'.1 (List.mem_map.mpr ⟨(k0, v), h0, rfl⟩)
      rw [lookupA, if_neg hk]
      exact ih hnd'.2 h0

theorem jsGet_mem {cs : Choices} {k : Path} {v : JSValue}
    (h : jsGet cs k = some v) : (k, v) ∈ cs := by
  induction cs with
  | nil => exact absurd h (by simp [jsGet])
  | cons e rest ih =>
    obtain ⟨k0, v0⟩ := e
    rw [jsGet] at h
    split at h
    · next heq =>
      injection h with hv
      subst heq
      subst hv
      exact List.mem_cons_self _ _
    · exact List.mem_cons_of_mem _ (ih h)

theorem jsGet_eq_none {cs : Choices} {k : Path} :
    jsGet cs k = none ↔ k ∉ keysOf cs := by
  induction cs with
  | nil => simp [jsGet, keysOf]
  | cons e rest ih =>
    obtain ⟨k0, v0⟩ := e
    rw [jsGet, keysOf_cons]
    split
    · next heq =>
      subst heq
      constructor
      · intro hcontra
        exact absurd hcontra (by simp)
      · intro hcontra
        exact absurd (List.mem_cons_self _ _) hcontra
    · next hne =>
      rw [ih]
      constructor
      · intro h hm
        rcases List.mem_cons.mp hm with hm | hm
        · exact hne hm.symm
        · exact h hm
      · intro h hm
        exact h (List.mem_cons_of_mem _ hm)

theorem jsGet_of_mem_nodup {cs : Choices} {k : Path} {v : JSValue}
    (hnd : (keysOf cs).Nodup) (h : (k, v) ∈ cs) : jsGet cs k = some v := by
  induction cs with
  | nil => exact absurd h (by simp)
  | cons e rest ih =>
    obtain ⟨k0, v0⟩ := e
    rw [keysOf_cons, List.nodup_cons] at hnd
    rcases List.mem_cons.mp h with h0 | h0
    · rw [show k = k0 from congrArg Prod.fst h0,
        show v = v0 from congrArg Prod.snd h0]
      rw [jsGet, if_pos rfl]
    · have hk : k0 ≠ k := by
        intro hkk
        subst hkk
        exact hnd.1 (mem_keysOf h0)
      rw [jsGet, if_neg hk]
      exact ih hnd.2 h0

theorem jsGet_append_some {cs l : Choices} {k : Path} {v : JSValue}
    (h : jsGet cs k = some v) : jsGet (cs ++ l) k = some v := by
  induction cs with
  | nil => exact absurd h (by simp [jsGet])
  | cons e rest ih =>
    obtain ⟨k0, v0⟩ := e
    rw [jsGet] at h
    rw [List.cons_append, jsGet]
    split at h
    · next heq => rw [if_pos heq]; exact h
    · next hne => rw [if_neg hne]; exact ih h

theorem jsGet_append_of_not_mem {cs l : Choices} {k : Path}
    (h : k ∉ keysOf cs) : jsGet (cs ++ l) k = jsGet l k := by
  induction cs with
  | nil => simp
  | cons e rest ih =>
    obtain ⟨k0, v0⟩ := e
    rw [keysOf_cons] at h
    have h1 : k0 ≠ k := by
      intro hkk
      rw [hkk] at h
      exact h (List.mem_cons_self _ _)
    have h2 : k ∉ keysOf rest := fun hm => h (List.mem_cons_of_mem _ hm)
    rw [List.cons_append, jsGet, if_neg h1]
    exact ih h2

theorem keysOf_append {κ α : Type} {l₁ l₂ : List (κ × α)} :
    keysOf (l₁ ++ l₂) = keysOf l₁ ++ keysOf l₂ := by
  simp [keysOf]

theorem jsSet_of_not_mem {cs : Choices} {k : Path} {v : JSValue}
    (h : k ∉ keysOf cs) : jsSet cs k v = cs ++ [(k, v)] := by
  induction cs with
  | nil => simp [jsSet]
  | cons e rest ih =>
    obtain ⟨k0, v0⟩ := e
    rw [keysOf_cons] at h
    have h1 : k0 ≠ k := by
      intro hkk
      rw [hkk] at h
      exact h (List.mem_cons_self _ _)
    have h2 : k ∉ keysOf rest := fun hm => h (List.mem_cons_of_mem _ hm)
    rw [jsSet, if_neg h1, ih h2, List.cons_append]

theorem jsGet_jsSet_self {cs : Choices} {k : Path} {v : JSValue} :
    jsGet (jsSet cs k v) k = some v := by
  induction cs with
  | nil => rw [jsSet, jsGet, if_pos rfl]
  | cons e rest ih =>
    obtain ⟨k0, v0⟩ := e
    rw [jsSet]
    split
    · rw [jsGet, if_pos rfl]
    · next hne => rw [jsGet, if_neg hne]; exact ih

theorem jsGet_jsSet_ne {cs : Choices} {k q : Path} {v : JSValue}
    (h : q ≠ k) : jsGet (jsSet cs k v) q = jsGet cs q := by
  induction cs with
  | nil => simp [jsSet, jsGet, Ne.symm h]
  | cons e rest ih =>
    obtain ⟨k0, v0⟩ := e
    rw [jsSet]
    split
    · next heq =>
      subst heq
      rw [jsGet, if_neg (Ne.symm h), jsGet, if_neg (Ne.symm h)]
    · next hne =>
      rw [jsGet, jsGet]
      split
      · rfl
      · exact ih

theorem keysOf_jsSet_of_mem {cs : Choices} {k : Path} {v : JSValue}
    (h : k ∈ keysOf cs) : keysOf (jsSet cs k v) = keysOf cs := by
  induction cs with
  | nil => exact absurd h (by simp [keysOf])
  | cons e rest ih =>
    obtain ⟨k0, v0⟩ := e
    rw [keysOf_cons] at h
    rw [jsSet]
    split
    · next heq => subst heq; rfl
    · next hne =>
      have hm : k ∈ keysOf rest := by
        rcases List.mem_cons.mp h with hc | hc
        · exact absurd hc.symm hne
        · exact hc
      rw [keysOf_cons, keysOf_cons, ih hm]

theorem nodup_keysOf_jsSet {cs : Choices} {k : Path} {v : JSValue}
    (hnd : (keysOf cs).Nodup) : (keysOf (jsSet cs k v)).Nodup := by
  by_cases h : k ∈ keysOf cs
  · rw [keysOf_jsSet_of_mem h]; exact hnd
  · rw [jsSet_of_not_mem h, keysOf_append]
    refine List.Nodup.append hnd (by simp [keysOf]) ?hd
    intro a ha hb
    rcases (by simpa [keysOf] using hb : a = k) with rfl
    exact h ha

/-!
Well-formedness facts.
-/

theorem wfFields_head_tail {k : String} {spec : FieldSpec} {rest : Fields}
    (h : wfFields ((k, spec) :: rest) = true) :
    goodName k = true ∧ (lookupA rest k).isNone = true ∧
      wfSpec spec = true ∧ wfFields rest = true := by
  rw [wfFields] at h
  simp only [Bool.and_eq_true] at h
  exact ⟨h.1.1.1, h.1.1.2, h.1.2, h.2⟩

theorem wfOpts_head_tail {o : String} {node : Fields}
    {rest : List (String × Fields)}
    (h : wfOpts ((o, node) :: rest) = true) :
    goodName o = true ∧ (lookupA rest o).isNone = true ∧
      wfFields node = true ∧ wfOpts rest = true := by
  rw [wfOpts] at h
  simp only [Bool.and_eq_true] at h
  exact ⟨h.1.1.1, h.1.1.2, h.1.2, h.2⟩

theorem wfSpec_enm {opts : List (String × Fields)} {r : Bool}
    {vr : Option (JSValue → Bool)}
    (h : wfSpec (.enm opts r vr) = true) : wfOpts opts = true := by
  rw [wfSpec] at h
  exact h

theorem wfFields_lookup {fs : Fields} {k : String} {sp : FieldSpec}
    (hwf : wfFields fs = true) (h : lookupA fs k = some sp) :
    wfSpec sp = true := by
  induction fs with
  | nil => exact absurd h (by simp [lookupA])
  | cons e rest ih =>
    obtain ⟨k0, sp0⟩ := e
    obtain ⟨_, _, h3, h4⟩ := wfFields_head_tail hwf
    rw [lookupA] at h
    split at h
    · injection h with hsp
      subst hsp
      exact h3
    · exact ih h4 h

theorem wfFields_nodup {fs : Fields} (hwf : wfFields fs = true) :
    (keysOf fs).Nodup := by
  induction fs with
  | nil => simp [keysOf]
  | cons e rest ih =>
    obtain ⟨k0, sp0⟩ := e
    obtain ⟨_, h2, _, h4⟩ := wfFields_head_tail hwf
    rw [keysOf_cons, List.nodup_cons]
    exact ⟨lookupA_eq_none.mp (Option.isNone_iff_eq_none.mp h2), ih h4⟩

theorem wfFields_mem_lookup {fs : Fields} {k : String} {sp : FieldSpec}
    (hwf : wfFields fs = true) (hm : (k, sp) ∈ fs) : lookupA fs k = some sp :=
  lookupA_of_mem_nodup (wfFields_nodup hwf) hm

theorem wfOpts_lookup {opts : List (String × Fields)} {k : String}
    {node : Fields} (hwf : wfOpts opts = true)
    (h : lookupA opts k = some node) : wfFields node = true := by
  induction opts with
  | nil => exact absurd h (by simp [lookupA])
  | cons e rest ih =>
    obtain ⟨o0, n0⟩ := e
    obtain ⟨_, _, h3, h4⟩ := wfOpts_head_tail hwf
    rw [lookupA] at h
    split at h
    · injection h with hn
      subst hn
      exact h3
    · exact ih h4 h

theorem wfOpts_nodup {opts : List (String × Fields)}
    (hwf : wfOpts opts = true) : (keysOf opts).Nodup := by
  induction opts with
  | nil => simp [keysOf]
  | cons e rest ih =>
    obtain ⟨o0, n0⟩ := e
    obtain ⟨_, h2, _, h4⟩ := wfOpts_head_tail hwf
    rw [keysOf_cons, List.nodup_cons]
    exact ⟨lookupA_eq_none.mp (Option.isNone_iff_eq_none.mp h2), ih h4⟩

theorem wfOpts_mem_lookup {opts : List (String × Fields)} {o : String}
    {node : Fields} (hwf : wfOpts opts = true) (hm : (o, node) ∈ opts) :
    lookupA opts o = some node :=
  lookupA_of_mem_nodup (wfOpts_nodup hwf) hm

theorem wfOpts_undefined {opts : List (String × Fields)}
    (hwf : wfOpts opts = true) : lookupA opts "undefined" = none := by
  induction opts with
  | nil => rfl
  | cons e rest ih =>
    obtain ⟨o0, n0⟩ := e
    obtain ⟨h1, _, _, h4⟩ := wfOpts_head_tail hwf
    rw [lookupA, if_neg ?hne]
    · exact ih h4
    case hne =>
      intro ho
      subst ho
      exact absurd h1 (by decide)

/-!
Resolution stability: extending the ChoiceSet with further entries (never
removing or overwriting recorded ones) preserves every successful
_choiceConfig resolution, because a successful walk reads only ancestor
choices that are present (a missing one would look up the option named
undefined, which a well-formed schema does not have).
-/

theorem choicesLe_append {cs l : Choices} : ChoicesLe cs (cs ++ l) :=
  fun _ _ h => jsGet_append_some h

theorem walkCC_extends {cs cs2 : Choices} (hext : ChoicesLe cs cs2)
    {fs : Fields} {as : List String} {t : String} {sp : FieldSpec}
    (hwf : wfFields fs = true) (h : walkCC cs fs as t = some sp) :
    walkCC cs2 fs as t = some sp := by
  induction as generalizing fs with
  | nil =>
    rw [walkCC] at h ⊢
    exact h
  | cons a rest ih =>
    match hfa : lookupA fs a with
    | none =>
      rw [walkCC, hfa] at h
      exact absurd h (by simp)
    | some (.lit kk rr vv) =>
      rw [walkCC, hfa] at h
      exact absurd h (by simp)
    | some (.enm opts rr vv) =>
      have hwfo : wfOpts opts = true := wfSpec_enm (wfFields_lookup hwf hfa)
      match hga : jsGet cs [a] with
      | none =>
        rw [walkCC, hfa] at h
        simp only [hga, wfOpts_undefined hwfo] at h
        exact absurd h (by simp)
      | some v =>
        rw [walkCC, hfa] at h
        simp only [hga] at h
        match hno : lookupA opts (valueKey v) with
        | none =>
          simp only [hno] at h
          exact absurd h (by simp)
        | some node =>
          simp only [hno] at h
          rw [walkCC, hfa]
          simp only [hext [a] v hga, hno]
          exact ih (wfOpts_lookup hwfo hno) h

theorem choiceConfig_extends {cs cs2 : Choices} (hext : ChoicesLe cs cs2)
    {defn : Fields} (hwf : wfFields defn = true) {p : Path} {sp : FieldSpec}
    (h : choiceConfig cs defn p = .found sp) :
    choiceConfig cs2 defn p = .found sp := by
  match p with
  | [] => exact absurd h (by rw [choiceConfig]; intro hc; cases hc)
  | s :: rest =>
    rw [choiceConfig] at h ⊢
    match hw : walkCC cs defn ((s :: rest).dropLast)
        ((s :: rest).getLast (by simp)) with
    | none => rw [hw] at h; exact absurd h (by intro hc; cases hc)
    | some sp0 =>
      rw [hw] at h
      rw [walkCC_extends hext hwf hw]
      exact h

theorem choiceConfig_concat {cs : Choices} {defn : Fields} {as : List String}
    {t : String} :
    choiceConfig cs defn (as ++ [t]) =
      (match walkCC cs defn as t with
       | some sp => CCRes.found sp
       | none => CCRes.notFound) := by
  match as with
  | [] =>
    rw [List.nil_append, choiceConfig]
    rfl
  | a :: as2 =>
    rw [show (a :: as2) ++ [t] = a :: (as2 ++ [t]) from rfl, choiceConfig]
    have hd : (a :: (as2 ++ [t])).dropLast = a :: as2 := by
      rw [show a :: (as2 ++ [t]) = (a :: as2) ++ [t] from rfl]
      exact List.dropLast_concat
    have hl : (a :: (as2 ++ [t])).getLast (by simp) = t := by
      simp [List.getLast_append_singleton]
    rw [hd, hl]

/-!
NodeAt: the correspondence between the tree position that fields() and
missing() reach through full-path recorded choices and the resolution of
_choiceConfig through single-segment recorded choices. The two agree for
paths of at most two segments (the ancestor, if any, is a root field
whose full path is its own single segment).
-/

theorem nodeAt_nil_eq {cs : Choices} {defn fs : Fields}
    (h : NodeAt cs defn [] fs) : fs = defn := by
  cases h with
  | root => rfl
  | step bc q fs2 key opts r vr v node hN hlk hq hget hopt =>
    have hlen := congrArg List.length hq
    simp at hlen

theorem nodeAt_walkCC {cs : Choices} {defn : Fields} {bc : Path} {fs : Fields}
    (h : NodeAt cs defn bc fs) (hlen : bc.length ≤ 1) (t : String) :
    walkCC cs defn bc t = lookupA fs t := by
  match bc, hlen with
  | [], _ =>
    rw [nodeAt_nil_eq h]
    rw [walkCC]
  | [a], _ =>
    cases h with
    | step bc2 q fs2 key opts r vr v node hN hlk hq hget hopt =>
      cases bc2 with
      | cons x xs =>
        exfalso
        have hl := congrArg List.length hq
        simp only [List.length_cons, List.length_append,
          List.length_singleton, List.length_nil] at hl
        omega
      | nil =>
        have hk : key = a := by simpa using hq.symm
        subst hk
        rw [nodeAt_nil_eq hN] at hlk
        simp only [walkCC, hlk, hget, hopt]

/-!
Constructor-loop facts: what one loop iteration guarantees when it
succeeds, and how the loop composes and what ChoiceSet it builds.
-/

theorem applyOne_ok {defn : Fields} {cs : Choices} {p : Path} {v : JSValue}
    {cs2 : Choices} (h : applyOne defn cs p v = .ok cs2) :
    cs2 = jsSet cs p v ∧
    (∃ fl, fieldsQ cs defn = some fl ∧ p ∈ fl) ∧
    (∃ spec, choiceConfig cs defn p = .found spec ∧
      valueOkFor spec v = true) := by
  unfold applyOne at h
  match hfl : fieldsQ cs defn with
  | none => simp only [hfl] at h; exact absurd h (by simp)
  | some fl =>
    simp only [hfl] at h
    by_cases hmem : p ∈ fl
    case neg => rw [if_neg hmem] at h; exact absurd h (by simp)
    case pos =>
      rw [if_pos hmem] at h
      match hcc : choiceConfig cs defn p with
      | .notFound => simp only [hcc] at h; exact absurd h (by simp)
      | .rootMap fs => simp only [hcc] at h; exact absurd h (by simp)
      | .found (.lit .STRING r vr) =>
        simp only [hcc] at h
        by_cases ht : typeofStr v = "string"
        case neg => rw [if_neg ht] at h; exact absurd h (by simp)
        case pos =>
          rw [if_pos ht] at h
          match vr with
          | none =>
            simp only [Except.ok.injEq] at h
            exact ⟨h.symm, ⟨fl, rfl, hmem⟩,
              ⟨.lit .STRING r none, rfl,
                by simp [valueOkFor, typeCheckOk, vruleOk, FieldSpec.vrule, ht]⟩⟩
          | some f =>
            by_cases hf : f v = true
            case neg =>
              rw [Bool.not_eq_true] at hf
              simp [hf] at h
            case pos =>
              simp [hf] at h
              exact ⟨h.symm, ⟨fl, rfl, hmem⟩,
                ⟨.lit .STRING r (some f), rfl,
                  by simp [valueOkFor, typeCheckOk, vruleOk, FieldSpec.vrule,
                    ht, hf]⟩⟩
      | .found (.lit .NUMBER r vr) =>
        simp only [hcc] at h
        by_cases ht : typeofStr v = "number"
        case neg => rw [if_neg ht] at h; exact absurd h (by simp)
        case pos =>
          rw [if_pos ht] at h
          match vr with
          | none =>
            simp only [Except.ok.injEq] at h
            exact ⟨h.symm, ⟨fl, rfl, hmem⟩,
              ⟨.lit .NUMBER r none, rfl,
                by simp [valueOkFor, typeCheckOk, vruleOk, FieldSpec.vrule, ht]⟩⟩
          | some f =>
            by_cases hf : f v = true
            case neg =>
              rw [Bool.not_eq_true] at hf
              simp [hf] at h
            case pos =>
              simp [hf] at h
              exact ⟨h.symm, ⟨fl, rfl, hmem⟩,
                ⟨.lit .NUMBER r (some f), rfl,
                  by simp [valueOkFor, typeCheckOk, vruleOk, FieldSpec.vrule,
                    ht, hf]⟩⟩
      | .found (.enm opts r vr) =>
        simp only [hcc] at h
        by_cases ht : valInKeys opts v = true
        case neg => rw [if_neg (by simpa using ht)] at h; exact absurd h (by simp)
        case pos =>
          rw [if_pos (by simpa using ht)] at h
          match vr with
          | none =>
            simp only [Except.ok.injEq] at h
            exact ⟨h.symm, ⟨fl, rfl, hmem⟩,
              ⟨.enm opts r none, rfl,
                by simp [valueOkFor, typeCheckOk, vruleOk, FieldSpec.vrule, ht]⟩⟩
          | some f =>
            by_cases hf : f v = true
            case neg =>
              rw [Bool.not_eq_true] at hf
              simp [hf] at h
            case pos =>
              simp [hf] at h
              exact ⟨h.symm, ⟨fl, rfl, hmem⟩,
                ⟨.enm opts r (some f), rfl,
                  by simp [valueOkFor, typeCheckOk, vruleOk, FieldSpec.vrule,
                    ht, hf]⟩⟩

theorem applyOne_of_checks {defn : Fields} {cs : Choices} {p : Path}
    {v : JSValue} {fl : List Path} {spec : FieldSpec}
    (hfl : fieldsQ cs defn = some fl) (hmem : p ∈ fl)
    (hcc : choiceConfig cs defn p = .found spec)
    (hok : valueOkFor spec v = true) :
    applyOne defn cs p v = .ok (jsSet cs p v) := by
  obtain ⟨h1, h2⟩ :=
    (by simpa [valueOkFor, Bool.and_eq_true] using hok :
      typeCheckOk spec v = true ∧ vruleOk spec v = true)
  match spec, h1, h2 with
  | .lit .STRING r none, h1, _ =>
    have ht : typeofStr v = "string" := by simpa [typeCheckOk] using h1
    unfold applyOne
    simp [hfl, hcc, hmem, ht]
  | .lit .STRING r (some f), h1, h2 =>
    have ht : typeofStr v = "string" := by simpa [typeCheckOk] using h1
    have hf : f v = true := by simpa [vruleOk, FieldSpec.vrule] using h2
    unfold applyOne
    simp [hfl, hcc, hmem, ht, hf]
  | .lit .NUMBER r none, h1, _ =>
    have ht : typeofStr v = "number" := by simpa [typeCheckOk] using h1
    unfold applyOne
    simp [hfl, hcc, hmem, ht]
  | .lit .NUMBER r (some f), h1, h2 =>
    have ht : typeofStr v = "number" := by simpa [typeCheckOk] using h1
    have hf : f v = true := by simpa [vruleOk, FieldSpec.vrule] using h2
    unfold applyOne
    simp [hfl, hcc, hmem, ht, hf]
  | .enm opts r none, h1, _ =>
    have ht : valInKeys opts v = true := by simpa [typeCheckOk] using h1
    unfold applyOne
    simp [hfl, hcc, hmem, ht]
  | .enm opts r (some f), h1, h2 =>
    have ht : valInKeys opts v = true := by simpa [typeCheckOk] using h1
    have hf : f v = true := by simpa [vruleOk, FieldSpec.vrule] using h2
    unfold applyOne
    simp [hfl, hcc, hmem, ht, hf]

theorem construct_append {defn : Fields} {l1 l2 : List (Path × JSValue)}
    {cs : Choices} :
    construct defn (l1 ++ l2) cs =
      match construct defn l1 cs with
      | .error e => .error e
      | .ok m => construct defn l2 m := by
  induction l1 generalizing cs with
  | nil => rfl
  | cons e rest ih =>
    obtain ⟨p, v⟩ := e
    rw [List.cons_append, construct, construct]
    match applyOne defn cs p v with
    | .error e => rfl
    | .ok m => exact ih

theorem construct_ok_out {defn : Fields} :
    ∀ {l : List (Path × JSValue)} {cs m : Choices},
    (keysOf l).Nodup → (∀ k, k ∈ keysOf l → k ∉ keysOf cs) →
    construct defn l cs = .ok m → m = cs ++ l := by
  intro l
  induction l with
  | nil =>
    intro cs m _ _ h
    injection h with h
    rw [← h, List.append_nil]
  | cons e rest ih =>
    obtain ⟨p, v⟩ := e
    intro cs m hnd hfresh h
    rw [keysOf_cons, List.nodup_cons] at hnd
    rw [construct] at h
    match hap : applyOne defn cs p v with
    | .error e2 => simp only [hap] at h; exact absurd h (by simp)
    | .ok cs2 =>
      simp only [hap] at h
      have hpfresh : p ∉ keysOf cs :=
        hfresh p (by rw [keysOf_cons]; exact List.mem_cons_self _ _)
      have hcs2 : cs2 = cs ++ [(p, v)] := by
        rw [(applyOne_ok hap).1, jsSet_of_not_mem hpfresh]
      subst hcs2
      have hout := ih hnd.2 ?fresh h
      case fresh =>
        intro k hk
        rw [keysOf_append]
        intro hmem
        rcases List.mem_append.mp hmem with hc | hc
        · exact hfresh k (by rw [keysOf_cons]; exact List.mem_cons_of_mem _ hk) hc
        · have : k = p := by simpa [keysOf] using hc
          subst this
          exact hnd.1 hk
      rw [hout, List.append_assoc]
      rfl

theorem constructB_ok_self {defn : Fields} {l : List (Path × JSValue)}
    {m : Choices} (hnd : (keysOf l).Nodup) (h : constructB defn l = .ok m) :
    m = l := by
  have := construct_ok_out hnd (by intro k _ hc; simp [keysOf] at hc) h
  simpa using this

theorem validB_of_constructB {defn : Fields} {l : List (Path × JSValue)}
    {m : Choices} (hnd : (keysOf l).Nodup) (h : constructB defn l = .ok m) :
    ValidB defn m := by
  have hm := constructB_ok_self hnd h
  subst hm
  exact ⟨hnd, h⟩

/-!
The ChoiceSet invariant: every entry of a ChoiceSet built by the
constructor loop resolves through the already-recorded ancestor choices
to a spec whose checks its value passes; each step of the loop validates
against the choices made so far, and later fresh entries cannot disturb
an earlier resolution.
-/

theorem construct_inv {defn : Fields} (hwf : wfFields defn = true) :
    ∀ {l : List (Path × JSValue)} {cs m : Choices},
    (keysOf l).Nodup → (∀ k, k ∈ keysOf l → k ∉ keysOf cs) →
    (∀ p v, (p, v) ∈ cs →
      ∃ spec, choiceConfig cs defn p = .found spec ∧
        valueOkFor spec v = true) →
    construct defn l cs = .ok m →
    ∀ p v, (p, v) ∈ m →
      ∃ spec, choiceConfig m defn p = .found spec ∧
        valueOkFor spec v = true := by
  intro l
  induction l with
  | nil =>
    intro cs m _ _ hinv h
    rw [construct] at h
    injection h with h
    subst h
    exact hinv
  | cons e rest ih =>
    obtain ⟨p0, v0⟩ := e
    intro cs m hnd hfresh hinv h
    rw [keysOf_cons, List.nodup_cons] at hnd
    rw [construct] at h
    match hap : applyOne defn cs p0 v0 with
    | .error e2 => simp only [hap] at h; exact absurd h (by simp)
    | .ok cs2 =>
      simp only [hap] at h
      obtain ⟨hcs2, -, spec0, hcc0, hok0⟩ := applyOne_ok hap
      have hp0fresh : p0 ∉ keysOf cs :=
        hfresh p0 (by rw [keysOf_cons]; exact List.mem_cons_self _ _)
      have hcs2eq : cs2 = cs ++ [(p0, v0)] := by
        rw [hcs2, jsSet_of_not_mem hp0fresh]
      subst hcs2eq
      refine ih hnd.2 ?fresh ?inv h
      case fresh =>
        intro k hk
        rw [keysOf_append]
        intro hmem
        rcases List.mem_append.mp hmem with hc | hc
        · exact hfresh k
            (by rw [keysOf_cons]; exact List.mem_cons_of_mem _ hk) hc
        · have hkp : k = p0 := by simpa [keysOf] using hc
          subst hkp
          exact hnd.1 hk
      case inv =>
        intro q w hm
        rcases List.mem_append.mp hm with hq | hq
        · obtain ⟨sp, hsp, hwok⟩ := hinv q w hq
          exact ⟨sp, choiceConfig_extends choicesLe_append hwf hsp, hwok⟩
        · obtain ⟨rfl, rfl⟩ :=
            (by simpa using hq : q = p0 ∧ w = v0)
          exact ⟨spec0, choiceConfig_extends choicesLe_append hwf hcc0, hok0⟩

theorem constructB_inv {defn : Fields} {l : List (Path × JSValue)}
    {m : Choices} (hwf : wfFields defn = true) (hnd : (keysOf l).Nodup)
    (h : constructB defn l = .ok m) :
    ∀ p v, (p, v) ∈ m →
      ∃ spec, choiceConfig m defn p = .found spec ∧
        valueOkFor spec v = true := by
  refine construct_inv hwf hnd ?_ ?_ h
  · intro k _ hc
    simp [keysOf] at hc
  · intro p v hm
    exact absurd hm (by simp)

theorem validB_inv {defn : Fields} {cs : Choices} (hwf : wfFields defn = true)
    (hV : ValidB defn cs) :
    ∀ p v, (p, v) ∈ cs →
      ∃ spec, choiceConfig cs defn p = .found spec ∧
        valueOkFor spec v = true :=
  constructB_inv hwf hV.1 hV.2

/-!
choose on a fresh path: the re-validation of the existing entries
succeeds as before (the merged object lists them first, unchanged), so
choose reduces to one constructor iteration against the current
ChoiceSet.
-/

theorem choose_eq_applyOne {defn : Fields} {cs : Choices} {p : Path}
    {v : JSValue} (hV : ValidB defn cs) (hp : jsGet cs p = none) :
    choose defn cs p v = applyOne defn cs p v := by
  unfold choose constructB
  rw [jsSet_of_not_mem (jsGet_eq_none.mp hp), construct_append,
    show construct defn cs [] = .ok cs from hV.2]
  match hap : applyOne defn cs p v with
  | .error e => simp [construct, hap]
  | .ok cs2 => simp [construct, hap]

theorem choose_ok_out {defn : Fields} {cs : Choices} {p : Path} {v : JSValue}
    {m : Choices} (hV : ValidB defn cs) (h : choose defn cs p v = .ok m) :
    m = jsSet cs p v := by
  unfold choose at h
  exact constructB_ok_self (nodup_keysOf_jsSet hV.1) h

theorem validB_of_choose {defn : Fields} {cs : Choices} {p : Path}
    {v : JSValue} {m : Choices} (hV : ValidB defn cs)
    (h : choose defn cs p v = .ok m) : ValidB defn m := by
  unfold choose at h
  exact validB_of_constructB (nodup_keysOf_jsSet hV.1) h

/-!
Totality of the fields() recursion on valid builders whose recorded
paths have at most two segments: the only way the recursion dies is a
recorded enumerated choice naming a missing option, and for records of
at most two segments the invariant rules that out, because _choiceConfig
and the tree walk agree there.
-/

theorem nodeAt_wfFields {cs : Choices} {defn : Fields} {bc : Path}
    {fs : Fields} (hwf : wfFields defn = true) (h : NodeAt cs defn bc fs) :
    wfFields fs = true := by
  induction h with
  | root => exact hwf
  | step bc q fs2 key opts r vr v node hN hlk hq hget hopt ih =>
    exact wfOpts_lookup (wfSpec_enm (wfFields_lookup ih hlk)) hopt

theorem sizeOf_lookupA_opts {opts : List (String × Fields)} {k : String}
    {node : Fields} (h : lookupA opts k = some node) :
    sizeOf node < sizeOf opts := by
  induction opts with
  | nil => exact absurd h (by simp [lookupA])
  | cons e rest ih =>
    obtain ⟨o, n0⟩ := e
    rw [lookupA] at h
    split at h
    · injection h with h
      subst h
      simp only [List.cons.sizeOf_spec, Prod.mk.sizeOf_spec]
      omega
    · have := ih h
      simp only [List.cons.sizeOf_spec, Prod.mk.sizeOf_spec]
      omega

theorem sizeOf_spec_of_mem {fs : Fields} {key : String} {spec : FieldSpec}
    (h : (key, spec) ∈ fs) : sizeOf spec < sizeOf fs := by
  induction fs with
  | nil => exact absurd h (by simp)
  | cons e rest ih =>
    rcases List.mem_cons.mp h with h0 | h0
    · subst h0
      simp only [List.cons.sizeOf_spec, Prod.mk.sizeOf_spec]
      omega
    · have := ih h0
      simp only [List.cons.sizeOf_spec]
      omega

theorem ideaOpts_lookup {cs : Choices} {k : String} :
    ∀ {opts : List (String × Fields)} {node : Fields} {p : Path},
    lookupA opts k = some node →
    ideaOpts cs k opts p = (ideaKids cs node p).map (fun kids => p :: kids) := by
  intro opts
  induction opts with
  | nil => intro node p h; exact absurd h (by simp [lookupA])
  | cons e rest ih =>
    obtain ⟨o, n0⟩ := e
    intro node p h
    rw [lookupA] at h
    rw [ideaOpts]
    by_cases ho : o = k
    · rw [if_pos ho] at h
      injection h with h
      subst h
      rw [if_pos ho]
    · rw [if_neg ho] at h
      rw [if_neg ho]
      exact ih h

theorem valInKeys_lookup {opts : List (String × Fields)} {v : JSValue}
    (h : valInKeys opts v = true) :
    ∃ node, lookupA opts (valueKey v) = some node := by
  match v with
  | .str s =>
    have hm : s ∈ keysOf opts := by
      have := (by simpa [valInKeys] using h : (keysOf opts).contains s = true)
      simpa using this
    exact lookupA_isSome_of_mem_keys hm
  | .num n => simp [valInKeys] at h

theorem nodeAt_lookup_of_cc {cs : Choices} {defn : Fields} {bc : Path}
    {fs : Fields} {t : String} {sp : FieldSpec}
    (hN : NodeAt cs defn bc fs) (hlen : bc.length ≤ 1)
    (hcc : choiceConfig cs defn (bc ++ [t]) = .found sp) :
    lookupA fs t = some sp := by
  rw [choiceConfig_concat] at hcc
  rw [nodeAt_walkCC hN hlen t] at hcc
  match h : lookupA fs t with
  | some sp2 => rw [h] at hcc; injection hcc with hcc; rw [hcc]
  | none => rw [h] at hcc; cases hcc

theorem ideaKids_some {defn : Fields} {cs : Choices}
    (hwf : wfFields defn = true) (hV : ValidB defn cs)
    (hdepth : ∀ p v, (p, v) ∈ cs → p.length ≤ 2) :
    ∀ n : Nat, ∀ fs0 : Fields, sizeOf fs0 ≤ n →
    ∀ bc : Path, NodeAt cs defn bc fs0 →
    ∀ fs : Fields, (∀ e, e ∈ fs → e ∈ fs0) →
    (ideaKids cs fs bc).isSome = true := by
  intro n
  induction n using Nat.strong_induction_on with
  | _ n ihn =>
    intro fs0 hsz bc hN fs hsub
    induction fs with
    | nil => rw [ideaKids]; rfl
    | cons e fsrest ihl =>
      obtain ⟨key, spec⟩ := e
      rw [ideaKids]
      have hrest : (ideaKids cs fsrest bc).isSome = true :=
        ihl (fun e he => hsub e (List.mem_cons_of_mem _ he))
      have hone : (ideaOne cs key spec bc).isSome = true := by
        match spec with
        | .lit kk rr vv => rw [ideaOne]; rfl
        | .enm opts rr vv =>
          rw [ideaOne]
          match hg : jsGet cs (bc ++ [key]) with
          | none => rfl
          | some v =>
            have hmemcs := jsGet_mem hg
            have hlen2 : (bc ++ [key]).length ≤ 2 := hdepth _ _ hmemcs
            have hbc : bc.length ≤ 1 := by
              rw [List.length_append, List.length_singleton] at hlen2
              omega
            obtain ⟨sp, hcc, hok⟩ := validB_inv hwf hV _ _ hmemcs
            have hlk0 : lookupA fs0 key = some sp :=
              nodeAt_lookup_of_cc hN hbc hcc
            have hmem0 : (key, .enm opts rr vv) ∈ fs0 :=
              hsub _ (List.mem_cons_self _ _)
            have hlk : lookupA fs0 key = some (.enm opts rr vv) :=
              wfFields_mem_lookup (nodeAt_wfFields hwf hN) hmem0
            have hsp : sp = .enm opts rr vv := by
              rw [hlk0] at hlk
              injection hlk
            subst hsp
            have htck : valInKeys opts v = true := by
              have := (by simpa [valueOkFor, Bool.and_eq_true] using hok :
                typeCheckOk (.enm opts rr vv) v = true ∧
                  vruleOk (.enm opts rr vv) v = true)
              simpa [typeCheckOk] using this.1
            obtain ⟨node, hnode⟩ := valInKeys_lookup htck
            show (ideaOpts cs (valueKey v) opts (bc ++ [key])).isSome = true
            rw [ideaOpts_lookup hnode]
            have hN2 : NodeAt cs defn (bc ++ [key]) node :=
              NodeAt.step bc (bc ++ [key]) fs0 key opts rr vv v node hN hlk
                rfl hg hnode
            have hszn : sizeOf node < n := by
              have h1 : sizeOf node < sizeOf opts := sizeOf_lookupA_opts hnode
              have h2 : sizeOf opts < sizeOf (FieldSpec.enm opts rr vv) := by
                simp only [FieldSpec.enm.sizeOf_spec]
                omega
              have h3 : sizeOf (FieldSpec.enm opts rr vv) < sizeOf fs0 :=
                sizeOf_spec_of_mem hmem0
              exact lt_of_lt_of_le (lt_trans (lt_trans h1 h2) h3) hsz
            have := ihn (sizeOf node) hszn node le_rfl (bc ++ [key]) hN2
              node (fun e he => he)
            match hik : ideaKids cs node (bc ++ [key]) with
            | some kids => simp
            | none => rw [hik] at this; exact absurd this (by simp)
      match h1 : ideaOne cs key spec bc, h2 : ideaKids cs fsrest bc with
      | some here, some more => rfl
      | none, _ => rw [h1] at hone; exact absurd hone (by simp)
      | some here, none => rw [h2] at hrest; exact absurd hrest (by simp)

theorem fieldsQ_isSome {defn : Fields} {cs : Choices}
    (hwf : wfFields defn = true) (hV : ValidB defn cs)
    (hdepth : ∀ p v, (p, v) ∈ cs → p.length ≤ 2) :
    (fieldsQ cs defn).isSome = true := by
  have h := ideaKids_some hwf hV hdepth (sizeOf defn) defn le_rfl [] .root
    defn (fun e he => he)
  unfold fieldsQ ideaFn
  match hik : ideaKids cs defn [] with
  | some kids => rfl
  | none => rw [hik] at h; exact absurd h (by simp)

/-!
missing() facts. First: every path the recursion emits passed the
undefined-choice filter, so missing() never reports a recorded path.
-/

theorem missingLevel_unset {cs : Choices} {defn : Fields}
    {deeper : List Path → Except Unit (List Path)}
    (hd : ∀ wl res, deeper wl = .ok res → ∀ p, p ∈ res → jsGet cs p = none) :
    ∀ wl res, missingLevel cs defn deeper wl = .ok res →
    ∀ p, p ∈ res → jsGet cs p = none := by
  intro wl
  induction wl with
  | nil =>
    intro res h p hp
    rw [missingLevel] at h
    injection h with h
    subst h
    exact absurd hp (by simp)
  | cons c rest ih =>
    intro res h p hp
    rw [missingLevel] at h
    match hfs : missingFieldsAt cs defn c with
    | none => simp only [hfs] at h; exact absurd h (by simp)
    | some fs =>
      simp only [hfs] at h
      match hds : deeper (((keysOf (fs.filter (fun kv =>
            kv.2.isLit = false))).map (fun k => c ++ [k])).filter
            (fun q => (jsGet cs q).isNone = false)),
          hms : missingLevel cs defn deeper rest with
      | .ok ds, .ok ms =>
        rw [hds, hms] at h
        injection h with h
        subst h
        rcases List.mem_append.mp hp with hp1 | hp2
        · rcases List.mem_append.mp hp1 with hp0 | hp0
          · exact of_decide_eq_true (List.mem_filter.mp hp0).2
          · exact hd _ _ hds p hp0
        · exact ih _ hms p hp2
      | .error e, _ =>
        rw [hds] at h
        exact absurd h (by simp)
      | .ok ds, .error e =>
        rw [hds, hms] at h
        exact absurd h (by simp)

theorem missingGo_unset {cs : Choices} {defn : Fields} :
    ∀ {fuel : Nat} {wl res : List Path},
    missingGo cs defn fuel wl = .ok res →
    ∀ p, p ∈ res → jsGet cs p = none := by
  intro fuel
  induction fuel with
  | zero =>
    intro wl res h p hp
    match wl with
    | [] =>
      rw [missingGo] at h
      injection h with h
      subst h
      exact absurd hp (by simp)
    | c :: rest =>
      rw [missingGo] at h
      exact absurd h (by simp)
  | succ f ih =>
    intro wl res h p hp
    rw [missingGo] at h
    exact missingLevel_unset (fun wl2 res2 h2 => ih h2) wl res h p hp

/-!
Second: totality of missing() on valid builders whose records are at
most two segments deep.
-/

theorem validB_root_unset {defn : Fields} {cs : Choices}
    (hwf : wfFields defn = true) (hV : ValidB defn cs) :
    jsGet cs [] = none := by
  match hg : jsGet cs [] with
  | none => rfl
  | some v =>
    obtain ⟨sp, hcc, -⟩ := validB_inv hwf hV _ _ (jsGet_mem hg)
    rw [choiceConfig] at hcc
    cases hcc

theorem wln_root {defn : Fields} {cs : Choices}
    (hwf : wfFields defn = true) (hV : ValidB defn cs) :
    WLN cs defn [] := by
  refine ⟨Or.inl rfl, defn, .root, ?_⟩
  rw [missingFieldsAt]
  rw [validB_root_unset hwf hV]
  rfl

theorem missingLevel_ok {cs : Choices} {defn : Fields}
    {deeper : List Path → Except Unit (List Path)}
    (hwf : wfFields defn = true) (hV : ValidB defn cs)
    (hdepth : ∀ p v, (p, v) ∈ cs → p.length ≤ 2)
    (P : Path → Prop)
    (hd : ∀ ql, (∀ q, q ∈ ql → WLN cs defn q ∧ P q) →
      ∃ res, deeper ql = .ok res) :
    ∀ wl, (∀ c, c ∈ wl → WLN cs defn c ∧ (∀ k, P (c ++ [k]))) →
    ∃ res, missingLevel cs defn deeper wl = .ok res := by
  intro wl
  induction wl with
  | nil =>
    intro _
    exact ⟨[], by rw [missingLevel]⟩
  | cons c rest ihl =>
    intro hwl
    obtain ⟨⟨hrec, fs, hN, hfs⟩, hPc⟩ := hwl c (List.mem_cons_self _ _)
    obtain ⟨ms, hms⟩ := ihl (fun c2 hc2 => hwl c2 (List.mem_cons_of_mem _ hc2))
    have hmade : ∀ q, q ∈ (((keysOf (fs.filter (fun kv =>
        kv.2.isLit = false))).map (fun k => c ++ [k])).filter
        (fun q => (jsGet cs q).isNone = false)) →
        WLN cs defn q ∧ P q := by
      intro q hq
      obtain ⟨hqm, hqrec⟩ := List.mem_filter.mp hq
      obtain ⟨k, hkm, hqk⟩ := List.mem_map.mp hqm
      obtain ⟨⟨k2, spec⟩, hsm, hk2⟩ := List.mem_map.mp hkm
      obtain ⟨hsf, hnl⟩ := List.mem_filter.mp hsm
      have hk2k : k = k2 := hk2.symm
      subst hk2k
      subst hqk
      have hrecq : (jsGet cs (c ++ [k])).isSome = true := by
        have := of_decide_eq_true hqrec
        match hg : jsGet cs (c ++ [k]) with
        | some w => rfl
        | none => rw [hg] at this; simp at this
      obtain ⟨w, hw⟩ := Option.isSome_iff_exists.mp hrecq
      have hmemw := jsGet_mem hw
      have hlenq : (c ++ [k]).length ≤ 2 := hdepth _ _ hmemw
      have hbc : c.length ≤ 1 := by
        rw [List.length_append, List.length_singleton] at hlenq
        omega
      obtain ⟨sp, hcc, hok⟩ := validB_inv hwf hV _ _ hmemw
      have hlk0 : lookupA fs k = some sp := nodeAt_lookup_of_cc hN hbc hcc
      have hspec : lookupA fs k = some spec :=
        wfFields_mem_lookup (nodeAt_wfFields hwf hN) hsf
      have hsp : sp = spec := by
        rw [hlk0] at hspec
        injection hspec
      subst hsp
      match sp, hnl, hcc, hok with
      | .enm opts rr vv, _, hcc, hok =>
        have htck : valInKeys opts w = true := by
          have := (by simpa [valueOkFor, Bool.and_eq_true] using hok :
            typeCheckOk (.enm opts rr vv) w = true ∧
              vruleOk (.enm opts rr vv) w = true)
          simpa [typeCheckOk] using this.1
        obtain ⟨node, hnode⟩ := valInKeys_lookup htck
        refine ⟨⟨Or.inr hrecq, node,
          NodeAt.step c (c ++ [k]) fs k opts rr vv w node hN hlk0 rfl hw
            hnode, ?_⟩, ?_⟩
        · rw [missingFieldsAt, hw, hcc]
          exact hnode
        · exact hPc k
      | .lit kk rr vv, hnl, _, _ =>
        exact absurd hnl (by simp [FieldSpec.isLit])
    obtain ⟨ds, hds⟩ := hd _ hmade
    refine ⟨((keysOf fs).map (fun k => c ++ [k])).filter
      (fun q => jsGet cs q = none) ++ ds ++ ms, ?_⟩
    rw [missingLevel]
    simp only [hfs, hds, hms]

theorem missingGo_ok {cs : Choices} {defn : Fields}
    (hwf : wfFields defn = true) (hV : ValidB defn cs)
    (hdepth : ∀ p v, (p, v) ∈ cs → p.length ≤ 2) :
    ∀ fuel wl, (∀ c, c ∈ wl → WLN cs defn c) →
    (∀ c, c ∈ wl → 3 ≤ c.length + fuel) →
    ∃ res, missingGo cs defn fuel wl = .ok res := by
  intro fuel
  induction fuel with
  | zero =>
    intro wl hwln hfuel
    match wl with
    | [] => exact ⟨[], by rw [missingGo]⟩
    | c :: rest =>
      exfalso
      have hlen : c.length ≤ 2 := by
        rcases (hwln c (List.mem_cons_self _ _)).1 with hc | hc
        · subst hc; simp
        · obtain ⟨w, hw⟩ := Option.isSome_iff_exists.mp hc
          exact hdepth _ _ (jsGet_mem hw)
      have := hfuel c (List.mem_cons_self _ _)
      omega
  | succ f ihf =>
    intro wl hwln hfuel
    rw [missingGo]
    refine missingLevel_ok hwf hV hdepth (fun q => 3 ≤ q.length + f) ?_ wl ?_
    · intro ql hql
      exact ihf ql (fun c hc => (hql c hc).1) (fun c hc => (hql c hc).2)
    · intro c hc
      refine ⟨hwln c hc, ?_⟩
      intro k
      have := hfuel c hc
      rw [List.length_append, List.length_singleton]
      omega

theorem missingFuel_ge {cs : Choices} (e : Path × JSValue) (rest : Choices)
    (h : cs = e :: rest) : 3 ≤ missingFuel cs := by
  subst h
  have hbase : ∀ l : Choices, 2 ≤ missingFuel l := by
    intro l
    induction l with
    | nil => simp [missingFuel]
    | cons e2 r2 ih =>
      rw [missingFuel] at ih ⊢
      simp only [List.foldr_cons]
      omega
  rw [missingFuel]
  simp only [List.foldr_cons]
  have := hbase rest
  rw [missingFuel] at this
  omega

theorem missingQ_nil_ok {defn : Fields} :
    ∃ res, missingQ ([] : Choices) defn = .ok res := by
  refine ⟨((keysOf defn).map (fun k => ([] : Path) ++ [k])).filter
    (fun q => jsGet ([] : Choices) q = none) ++ [] ++ [], ?_⟩
  have h2 : (((keysOf (defn.filter (fun kv => kv.2.isLit = false))).map
      (fun k => ([] : Path) ++ [k])).filter
      (fun q => (jsGet ([] : Choices) q).isNone = false)) = [] := by
    apply List.filter_eq_nil_iff.mpr
    intro q hq
    simp [jsGet]
  show missingLevel [] defn (missingGo [] defn 1) [[]] = _
  rw [missingLevel]
  rw [show missingFieldsAt [] defn [] = some defn from rfl]
  simp only [h2]
  rfl

theorem missingQ_ok {defn : Fields} {cs : Choices}
    (hwf : wfFields defn = true) (hV : ValidB defn cs)
    (hdepth : ∀ p v, (p, v) ∈ cs → p.length ≤ 2) :
    ∃ res, missingQ cs defn = .ok res := by
  by_cases hcs : cs = []
  · subst hcs
    exact missingQ_nil_ok
  · have hfuel : 3 ≤ missingFuel cs := by
      match cs, hcs with
      | e :: rest, _ => exact missingFuel_ge e rest rfl
    unfold missingQ
    refine missingGo_ok hwf hV hdepth (missingFuel cs) [[]] ?_ ?_
    · intro c hc
      rw [show c = [] from by simpa using hc]
      exact wln_root hwf hV
    · intro c hc
      rw [show c = [] from by simpa using hc]
      simpa using hfuel

/-!
fields() on the empty ChoiceSet lists exactly the root fields, and the
error results of one constructor iteration.
-/

theorem ideaKids_nil_choices : ∀ (fs : Fields) (bc : Path),
    ideaKids ([] : Choices) fs bc =
      some (fs.map (fun kv => bc ++ [kv.1])) := by
  intro fs
  induction fs with
  | nil => intro bc; rfl
  | cons e rest ih =>
    obtain ⟨k, spec⟩ := e
    intro bc
    rw [ideaKids, ih]
    match spec with
    | .lit kk rr vv => rfl
    | .enm opts rr vv => rfl

theorem fieldsQ_nil_choices {defn : Fields} :
    fieldsQ ([] : Choices) defn = some (defn.map (fun kv => [kv.1])) := by
  unfold fieldsQ ideaFn
  rw [ideaKids_nil_choices]
  rfl

theorem applyOne_invalidField {defn : Fields} {cs : Choices} {p : Path}
    {v : JSValue} {fl : List Path}
    (hfl : fieldsQ cs defn = some fl) (hmem : p ∉ fl) :
    applyOne defn cs p v = .error (.invalidField p) := by
  unfold applyOne
  simp only [hfl]
  rw [if_neg hmem]

theorem applyOne_unresolved {defn : Fields} {cs : Choices} {p : Path}
    {v : JSValue} {fl : List Path}
    (hfl : fieldsQ cs defn = some fl) (hmem : p ∈ fl)
    (hcc : choiceConfig cs defn p = .notFound) :
    applyOne defn cs p v = .error .jsError := by
  unfold applyOne
  simp only [hfl]
  rw [if_pos hmem]
  simp only [hcc]

theorem applyOne_string_mismatch {defn : Fields} {cs : Choices} {p : Path}
    {v : JSValue} {fl : List Path} {r : Bool} {vr : Option (JSValue → Bool)}
    (hfl : fieldsQ cs defn = some fl) (hmem : p ∈ fl)
    (hcc : choiceConfig cs defn p = .found (.lit .STRING r vr))
    (ht : typeofStr v ≠ "string") :
    applyOne defn cs p v =
      .error (.invalidChoice p v (some "must be string")) := by
  unfold applyOne
  simp only [hfl]
  rw [if_pos hmem]
  simp only [hcc]
  rw [if_neg ht]

theorem applyOne_number_mismatch {defn : Fields} {cs : Choices} {p : Path}
    {v : JSValue} {fl : List Path} {r : Bool} {vr : Option (JSValue → Bool)}
    (hfl : fieldsQ cs defn = some fl) (hmem : p ∈ fl)
    (hcc : choiceConfig cs defn p = .found (.lit .NUMBER r vr))
    (ht : typeofStr v ≠ "number") :
    applyOne defn cs p v =
      .error (.invalidChoice p v (some "must be number")) := by
  unfold applyOne
  simp only [hfl]
  rw [if_pos hmem]
  simp only [hcc]
  rw [if_neg ht]

theorem applyOne_enm_mismatch {defn : Fields} {cs : Choices} {p : Path}
    {v : JSValue} {fl : List Path} {opts : List (String × Fields)} {r : Bool}
    {vr : Option (JSValue → Bool)}
    (hfl : fieldsQ cs defn = some fl) (hmem : p ∈ fl)
    (hcc : choiceConfig cs defn p = .found (.enm opts r vr))
    (ht : valInKeys opts v = false) :
    applyOne defn cs p v =
      .error (.invalidChoice p v (some (oneOfReason opts))) := by
  unfold applyOne
  simp only [hfl]
  rw [if_pos hmem]
  simp only [hcc]
  rw [if_neg (by simp [ht])]

theorem applyOne_vrule_fail {defn : Fields} {cs : Choices} {p : Path}
    {v : JSValue} {fl : List Path} {spec : FieldSpec} {f : JSValue → Bool}
    (hfl : fieldsQ cs defn = some fl) (hmem : p ∈ fl)
    (hcc : choiceConfig cs defn p = .found spec)
    (htc : typeCheckOk spec v = true)
    (hvr : spec.vrule = some f) (hf : f v = false) :
    applyOne defn cs p v = .error (.invalidChoice p v none) := by
  match spec, htc, hvr, hcc with
  | .lit .STRING r vr, htc, hvr, hcc =>
    have ht : typeofStr v = "string" := by simpa [typeCheckOk] using htc
    have hvf : vr = some f := by simpa [FieldSpec.vrule] using hvr
    subst hvf
    unfold applyOne
    simp only [hfl]
    rw [if_pos hmem]
    simp only [hcc]
    rw [if_pos ht]
    rw [if_neg (by simp [hf])]
  | .lit .NUMBER r vr, htc, hvr, hcc =>
    have ht : typeofStr v = "number" := by simpa [typeCheckOk] using htc
    have hvf : vr = some f := by simpa [FieldSpec.vrule] using hvr
    subst hvf
    unfold applyOne
    simp only [hfl]
    rw [if_pos hmem]
    simp only [hcc]
    rw [if_pos ht]
    rw [if_neg (by simp [hf])]
  | .enm opts r vr, htc, hvr, hcc =>
    have ht : valInKeys opts v = true := by simpa [typeCheckOk] using htc
    have hvf : vr = some f := by simpa [FieldSpec.vrule] using hvr
    subst hvf
    unfold applyOne
    simp only [hfl]
    rw [if_pos hmem]
    simp only [hcc]
    rw [if_pos (by simp [ht])]
    rw [if_neg (by simp [hf])]

/-!
Overwriting choose and mid-list construct failures. A recorded path of a
ChoiceSet with unique keys splits it at the path's position; merge keeps
that position, so choose re-validates the overwritten entry against
exactly the prefix before it, which by validity re-validates to itself.
The paths fields() emits only grow when choices are added (every level
keeps its breadcrumb and recorded descents are stable), so a recorded
path of a valid builder is always among fields().
-/

theorem jsGet_split {cs : Choices} {p : Path} {v : JSValue}
    (h : jsGet cs p = some v) :
    ∃ pre post, cs = pre ++ (p, v) :: post ∧ p ∉ keysOf pre := by
  induction cs with
  | nil => exact absurd h (by simp [jsGet])
  | cons e rest ih =>
    obtain ⟨k0, v0⟩ := e
    rw [jsGet] at h
    by_cases hk : k0 = p
    · rw [if_pos hk] at h
      injection h with h
      subst hk
      subst h
      exact ⟨[], rest, rfl, by simp [keysOf]⟩
    · rw [if_neg hk] at h
      obtain ⟨pre, post, heq, hpre⟩ := ih h
      refine ⟨(k0, v0) :: pre, post, by rw [heq]; rfl, ?_⟩
      rw [keysOf_cons]
      intro hm
      rcases List.mem_cons.mp hm with hc | hc
      · exact hk hc.symm
      · exact hpre hc

theorem jsSet_recorded {pre post : Choices} {p : Path} {w v : JSValue}
    (hpre : p ∉ keysOf pre) :
    jsSet (pre ++ (p, w) :: post) p v = pre ++ (p, v) :: post := by
  induction pre with
  | nil => rw [List.nil_append, jsSet, if_pos rfl, List.nil_append]
  | cons e rest ih =>
    obtain ⟨k0, v0⟩ := e
    rw [keysOf_cons] at hpre
    have h1 : k0 ≠ p := by
      intro hkk
      rw [hkk] at hpre
      exact hpre (List.mem_cons_self _ _)
    have h2 : p ∉ keysOf rest := fun hm => hpre (List.mem_cons_of_mem _ hm)
    show jsSet ((k0, v0) :: (rest ++ (p, w) :: post)) p v =
      (k0, v0) :: (rest ++ (p, v) :: post)
    rw [jsSet, if_neg h1, ih h2]

theorem validB_split {defn : Fields} {pre post : Choices} {p : Path}
    {w : JSValue} (hV : ValidB defn (pre ++ (p, w) :: post))
    (hpre : p ∉ keysOf pre) :
    construct defn pre [] = .ok pre ∧
    applyOne defn pre p w = .ok (pre ++ [(p, w)]) := by
  obtain ⟨hnd, hok⟩ := hV
  rw [keysOf_append] at hnd
  have hndpre : (keysOf pre).Nodup := hnd.of_append_left
  unfold constructB at hok
  rw [construct_append] at hok
  match hc1 : construct defn pre [] with
  | .error e =>
    simp only [hc1] at hok
    exact absurd hok (by simp)
  | .ok m1 =>
    simp only [hc1] at hok
    have hm1 : pre = m1 := by
      have h0 := construct_ok_out hndpre
        (by intro k _ hc; simp [keysOf] at hc) hc1
      simpa using h0.symm
    subst hm1
    rw [construct] at hok
    match hap : applyOne defn pre p w with
    | .error e =>
      simp only [hap] at hok
      exact absurd hok (by simp)
    | .ok cs2 =>
      have hcs2 : cs2 = pre ++ [(p, w)] := by
        rw [(applyOne_ok hap).1, jsSet_of_not_mem hpre]
      exact ⟨rfl, by rw [hcs2]⟩

theorem constructB_mid_error {defn : Fields} {l1 l2 : List (Path × JSValue)}
    {m : Choices} {p : Path} {v : JSValue} {e : BuildErr}
    (hm : construct defn l1 [] = .ok m)
    (hap : applyOne defn m p v = .error e) :
    constructB defn (l1 ++ (p, v) :: l2) = .error e := by
  unfold constructB
  rw [construct_append, hm]
  show construct defn ((p, v) :: l2) m = .error e
  rw [construct, hap]

theorem choose_recorded_error {defn : Fields} {pre post : Choices} {p : Path}
    {w v : JSValue} {e : BuildErr}
    (hV : ValidB defn (pre ++ (p, w) :: post)) (hpre : p ∉ keysOf pre)
    (hap : applyOne defn pre p v = .error e) :
    choose defn (pre ++ (p, w) :: post) p v = .error e := by
  obtain ⟨hc1, -⟩ := validB_split hV hpre
  unfold choose
  rw [jsSet_recorded hpre]
  exact constructB_mid_error hc1 hap

theorem applyOne_value_fail {defn : Fields} {cs : Choices} {p : Path}
    {v : JSValue} {fl : List Path} {spec : FieldSpec}
    (hfl : fieldsQ cs defn = some fl) (hmem : p ∈ fl)
    (hcc : choiceConfig cs defn p = .found spec)
    (hbad : valueOkFor spec v = false) :
    ∃ rsn, applyOne defn cs p v = .error (.invalidChoice p v rsn) := by
  by_cases htc : typeCheckOk spec v = true
  · have hvrf : vruleOk spec v = false := by
      match h : vruleOk spec v with
      | false => rfl
      | true =>
        exfalso
        rw [valueOkFor, htc, h] at hbad
        simp at hbad
    match hvrm : spec.vrule with
    | none =>
      exfalso
      unfold vruleOk at hvrf
      simp only [hvrm] at hvrf
      simp at hvrf
    | some f =>
      have hf : f v = false := by
        unfold vruleOk at hvrf
        simp only [hvrm] at hvrf
        exact hvrf
      exact ⟨none, applyOne_vrule_fail hfl hmem hcc htc hvrm hf⟩
  · have htcf : typeCheckOk spec v = false := by
      match h : typeCheckOk spec v with
      | false => rfl
      | true => exact absurd h htc
    match spec, hcc, htcf with
    | .lit .STRING r vr, hcc, htcf =>
      refine ⟨some "must be string", applyOne_string_mismatch hfl hmem hcc ?_⟩
      intro he
      rw [typeCheckOk] at htcf
      simp [he] at htcf
    | .lit .NUMBER r vr, hcc, htcf =>
      refine ⟨some "must be number", applyOne_number_mismatch hfl hmem hcc ?_⟩
      intro he
      rw [typeCheckOk] at htcf
      simp [he] at htcf
    | .enm opts r vr, hcc, htcf =>
      exact ⟨some (oneOfReason opts), applyOne_enm_mismatch hfl hmem hcc
        (by simpa [typeCheckOk] using htcf)⟩

theorem ideaOpts_some_parts {cs : Choices} {k : String} :
    ∀ {opts : List (String × Fields)} {p : Path} {l : List Path},
    ideaOpts cs k opts p = some l →
    ∃ node kids, lookupA opts k = some node ∧
      ideaKids cs node p = some kids ∧ l = p :: kids := by
  intro opts
  induction opts with
  | nil =>
    intro p l h
    rw [ideaOpts] at h
    exact absurd h (by simp)
  | cons e rest ih =>
    obtain ⟨o, node0⟩ := e
    intro p l h
    rw [ideaOpts] at h
    by_cases ho : o = k
    · rw [if_pos ho] at h
      match hk : ideaKids cs node0 p with
      | none =>
        rw [hk] at h
        exact absurd h (by simp)
      | some kids =>
        rw [hk, Option.map_some'] at h
        injection h with h
        exact ⟨node0, kids, by rw [lookupA, if_pos ho], hk, h.symm⟩
    · rw [if_neg ho] at h
      obtain ⟨node, kids, hl, hk, he⟩ := ih h
      refine ⟨node, kids, ?_, hk, he⟩
      rw [lookupA, if_neg ho]
      exact hl

theorem ideaKids_mono {cs cs2 : Choices} (hext : ChoicesLe cs cs2) :
    ∀ n : Nat, ∀ fs0 : Fields, sizeOf fs0 ≤ n →
    ∀ fs : Fields, (∀ e, e ∈ fs → e ∈ fs0) →
    ∀ bc : Path, ∀ l1 l2 : List Path,
    ideaKids cs fs bc = some l1 → ideaKids cs2 fs bc = some l2 →
    ∀ q, q ∈ l1 → q ∈ l2 := by
  intro n
  induction n using Nat.strong_induction_on with
  | _ n ihn =>
    intro fs0 hsz fs
    induction fs with
    | nil =>
      intro hsub bc l1 l2 h1 h2 q hq
      rw [ideaKids] at h1
      injection h1 with h1
      subst h1
      exact absurd hq (List.not_mem_nil q)
    | cons e fsrest ihl =>
      obtain ⟨key, spec⟩ := e
      intro hsub bc l1 l2 h1 h2 q hq
      have hmem0 : (key, spec) ∈ fs0 := hsub _ (List.mem_cons_self _ _)
      rw [ideaKids] at h1 h2
      match ho1 : ideaOne cs key spec bc, hk1 : ideaKids cs fsrest bc with
      | none, none =>
        simp only [ho1, hk1] at h1
        exact absurd h1 (by simp)
      | none, some more1 =>
        simp only [ho1, hk1] at h1
        exact absurd h1 (by simp)
      | some here1, none =>
        simp only [ho1, hk1] at h1
        exact absurd h1 (by simp)
      | some here1, some more1 =>
        simp only [ho1, hk1] at h1
        injection h1 with h1
        subst h1
        match ho2 : ideaOne cs2 key spec bc, hk2 : ideaKids cs2 fsrest bc with
        | none, none =>
          simp only [ho2, hk2] at h2
          exact absurd h2 (by simp)
        | none, some more2 =>
          simp only [ho2, hk2] at h2
          exact absurd h2 (by simp)
        | some here2, none =>
          simp only [ho2, hk2] at h2
          exact absurd h2 (by simp)
        | some here2, some more2 =>
          simp only [ho2, hk2] at h2
          injection h2 with h2
          subst h2
          rcases List.mem_append.mp hq with hq1 | hq1
          · refine List.mem_append.mpr (Or.inl ?_)
            match spec, ho1, ho2, hmem0 with
            | .lit kk rr vv, ho1, ho2, hmem0 =>
              rw [ideaOne] at ho1 ho2
              injection ho1 with ho1
              injection ho2 with ho2
              rw [← ho2]
              rw [← ho1] at hq1
              exact hq1
            | .enm opts rr vv, ho1, ho2, hmem0 =>
              rw [ideaOne] at ho1 ho2
              match hg : jsGet cs (bc ++ [key]) with
              | none =>
                simp only [hg] at ho1
                injection ho1 with ho1
                rw [← ho1] at hq1
                have hqe : q = bc ++ [key] := by simpa using hq1
                match hg2 : jsGet cs2 (bc ++ [key]) with
                | none =>
                  simp only [hg2] at ho2
                  injection ho2 with ho2
                  rw [← ho2, hqe]
                  exact List.mem_cons_self _ _
                | some v2 =>
                  simp only [hg2] at ho2
                  obtain ⟨node, kids, -, -, hpe⟩ := ideaOpts_some_parts ho2
                  rw [hpe, hqe]
                  exact List.mem_cons_self _ _
              | some v =>
                simp only [hg] at ho1
                have hg2 : jsGet cs2 (bc ++ [key]) = some v := hext _ _ hg
                simp only [hg2] at ho2
                obtain ⟨node, kids1, hlk, hkn1, hpe1⟩ :=
                  ideaOpts_some_parts ho1
                obtain ⟨node2, kids2, hlk2, hkn2, hpe2⟩ :=
                  ideaOpts_some_parts ho2
                have hnn : node2 = node := by
                  rw [hlk] at hlk2
                  injection hlk2 with hlk2
                  exact hlk2.symm
                subst hnn
                rw [hpe1] at hq1
                rw [hpe2]
                rcases List.mem_cons.mp hq1 with hqe | hqk
                · rw [hqe]
                  exact List.mem_cons_self _ _
                · refine List.mem_cons_of_mem _ ?_
                  have hszn : sizeOf node2 < n := by
                    have hs1 : sizeOf node2 < sizeOf opts :=
                      sizeOf_lookupA_opts hlk
                    have hs2 : sizeOf opts <
                        sizeOf (FieldSpec.enm opts rr vv) := by
                      simp only [FieldSpec.enm.sizeOf_spec]
                      omega
                    have hs3 : sizeOf (FieldSpec.enm opts rr vv) <
                        sizeOf fs0 := sizeOf_spec_of_mem hmem0
                    exact lt_of_lt_of_le (lt_trans (lt_trans hs1 hs2) hs3) hsz
                  exact ihn (sizeOf node2) hszn node2 le_rfl node2
                    (fun e he => he) (bc ++ [key]) kids1 kids2 hkn1 hkn2 q hqk
          · exact List.mem_append.mpr (Or.inr
              (ihl (fun e he => hsub e (List.mem_cons_of_mem _ he))
                bc more1 more2 hk1 hk2 q hq1))

theorem fieldsQ_mono {cs cs2 : Choices} {defn : Fields} {fl1 fl2 : List Path}
    (hext : ChoicesLe cs cs2) (h1 : fieldsQ cs defn = some fl1)
    (h2 : fieldsQ cs2 defn = some fl2) : ∀ q, q ∈ fl1 → q ∈ fl2 := by
  unfold fieldsQ ideaFn at h1 h2
  match hk1 : ideaKids cs defn [] with
  | none =>
    rw [hk1] at h1
    exact absurd h1 (by simp)
  | some kids1 =>
    rw [hk1] at h1
    match hk2 : ideaKids cs2 defn [] with
    | none =>
      rw [hk2] at h2
      exact absurd h2 (by simp)
    | some kids2 =>
      rw [hk2] at h2
      simp only [Option.map_some', List.tail_cons] at h1 h2
      injection h1 with h1
      injection h2 with h2
      intro q hq
      rw [← h2]
      rw [← h1] at hq
      exact ideaKids_mono hext (sizeOf defn) defn le_rfl defn
        (fun e he => he) [] kids1 kids2 hk1 hk2 q hq

theorem validB_recorded_mem_fields {defn : Fields} {cs : Choices} {p : Path}
    {w : JSValue} {fl : List Path} (hV : ValidB defn cs)
    (hg : jsGet cs p = some w) (hfl : fieldsQ cs defn = some fl) :
    p ∈ fl := by
  obtain ⟨pre, post, heq, hpre⟩ := jsGet_split hg
  subst heq
  obtain ⟨-, hap⟩ := validB_split hV hpre
  obtain ⟨-, ⟨fl0, hfl0, hmem0⟩, -⟩ := applyOne_ok hap
  exact fieldsQ_mono choicesLe_append hfl0 hfl p hmem0

theorem choose_fail_field {defn : Fields} {cs : Choices} {p : Path}
    {fl : List Path} (hV : ValidB defn cs)
    (hfl : fieldsQ cs defn = some fl) (hnm : p ∉ fl) :
    ∀ v, choose defn cs p v = .error (.invalidField p) := by
  intro v
  match hg : jsGet cs p with
  | none =>
    rw [choose_eq_applyOne hV hg]
    exact applyOne_invalidField hfl hnm
  | some w => exact absurd (validB_recorded_mem_fields hV hg hfl) hnm

theorem choose_resolved_step {defn : Fields} {cs : Choices} {p : Path}
    {spec : FieldSpec} {fl : List Path}
    (hwf : wfFields defn = true) (hV : ValidB defn cs)
    (hfl : fieldsQ cs defn = some fl) (hmem : p ∈ fl)
    (hcc : choiceConfig cs defn p = .found spec) :
    ∃ cs0 fl0, fieldsQ cs0 defn = some fl0 ∧ p ∈ fl0 ∧
      choiceConfig cs0 defn p = .found spec ∧
      ∀ v e, applyOne defn cs0 p v = .error e →
        choose defn cs p v = .error e := by
  match hg : jsGet cs p with
  | none =>
    exact ⟨cs, fl, hfl, hmem, hcc, fun v e he => by
      rw [choose_eq_applyOne hV hg]; exact he⟩
  | some w =>
    obtain ⟨pre, post, heq, hpre⟩ := jsGet_split hg
    subst heq
    obtain ⟨-, hap⟩ := validB_split hV hpre
    obtain ⟨-, ⟨fl0, hfl0, hmem0⟩, spec0, hcc0, -⟩ := applyOne_ok hap
    have hccfull : choiceConfig (pre ++ (p, w) :: post) defn p =
        .found spec0 := choiceConfig_extends choicesLe_append hwf hcc0
    have hspec : spec0 = spec := by
      rw [hccfull] at hcc
      exact CCRes.found.inj hcc
    subst hspec
    exact ⟨pre, fl0, hfl0, hmem0, hcc0, fun v e he =>
      choose_recorded_error hV hpre he⟩

/-!
The claims.
-/

/-- C1, counterexample: in the scenario schema, after choosing mage for
class, fields() is not [name, class.spell]: the chosen enumerated field
class is still listed, because the recursion emits each level's
breadcrumb path and tail only drops the synthetic root entry. -/
theorem c1_counterexample :
    fieldsQ scenarioCS scenarioDefn ≠ some [["name"], ["class", "spell"]] ∧
    ["class"] ∈ (fieldsQ scenarioCS scenarioDefn).getD [] := by
  decide

/-- C1, amended: for an enumerated field with a recorded choice naming an
existing option, fields() emits the field's own path followed by the
chosen option subtree's emissions (the path is not replaced); in the
scenario, fields() after choosing mage is [name, class, class.spell]. -/
theorem c1_descend_keeps_path {cs : Choices} {key : String}
    {opts : List (String × Fields)} {r : Bool} {vr : Option (JSValue → Bool)}
    {bc : Path} {v : JSValue} {node : Fields}
    (hg : jsGet cs (bc ++ [key]) = some v)
    (hnode : lookupA opts (valueKey v) = some node) :
    ideaOne cs key (.enm opts r vr) bc =
      (ideaKids cs node (bc ++ [key])).map
        (fun kids => (bc ++ [key]) :: kids) ∧
    fieldsQ scenarioCS scenarioDefn =
      some [["name"], ["class"], ["class", "spell"]] := by
  constructor
  · rw [ideaOne]
    simp only [hg]
    exact ideaOpts_lookup hnode
  · decide

/-- Witness for the amended C1 at the scenario schema. -/
theorem c1_descend_keeps_path_witness :
    ideaOne scenarioCS "class"
        (.enm [("warrior", []), ("mage", [("spell", .lit .STRING true none)])]
          true none) [] =
      (ideaKids scenarioCS [("spell", .lit .STRING true none)]
          ([] ++ ["class"])).map
        (fun kids => ([] ++ ["class"]) :: kids) ∧
    fieldsQ scenarioCS scenarioDefn =
      some [["name"], ["class"], ["class", "spell"]] :=
  c1_descend_keeps_path
    (show jsGet scenarioCS ([] ++ ["class"]) = some (.str "mage") by decide)
    rfl

/-- C2, counterexample: advDefn is well formed, the constructor accepts
the four entries of advL one by one (the three-segment path a.b.c
resolves through the same-named root field b instead of the recorded
choice for a.b), and on the resulting builder fields() and missing()
throw a TypeError. -/
theorem c2_counterexample :
    wfFields advDefn = true ∧
    constructB advDefn advL = .ok advL ∧
    fieldsQ advL advDefn = none ∧
    missingQ advL advDefn = .error () := by
  decide

/-- C2, amended: on a well-formed schema, for every builder built by
construct or choose all of whose recorded paths have at most two
segments, fields() and missing() raise no error; options, get and
requires are total functions of the model for every argument. -/
theorem c2_queries_total {defn : Fields} {cs : Choices}
    (hwf : wfFields defn = true) (hV : ValidB defn cs)
    (hdepth : ∀ p v, (p, v) ∈ cs → p.length ≤ 2) :
    (fieldsQ cs defn).isSome = true ∧ ∃ res, missingQ cs defn = .ok res :=
  ⟨fieldsQ_isSome hwf hV hdepth, missingQ_ok hwf hV hdepth⟩

/-- Witness for the amended C2 at the scenario builder. -/
theorem c2_queries_total_witness :
    (fieldsQ scenarioCS scenarioDefn).isSome = true ∧
    ∃ res, missingQ scenarioCS scenarioDefn = .ok res :=
  c2_queries_total (by decide) ⟨by decide, by decide⟩
    (by
      intro p v h
      rw [show p = ["class"] from
        congrArg Prod.fst (List.mem_singleton.mp h)]
      decide)

/-- C3, counterexample: in the three-level schema deep3 with a and a.b
chosen, a.b.c is listed by fields() and its governing spec in the schema
tree is enumerated, yet options returns undefined rather than the key
set and choose dies with a TypeError; and in vDefn, options lists
warrior and mage, yet choosing warrior fails the declared validation
predicate with InvalidChoice. -/
theorem c3_counterexample :
    (["a", "b", "c"] ∈ (fieldsQ d3cs deep3).getD [] ∧
      optionsQ d3cs deep3 ["a", "b", "c"] = .notFound ∧
      choose deep3 d3cs ["a", "b", "c"] (.str "w") = .error .jsError) ∧
    (["class"] ∈ (fieldsQ [] vDefn).getD [] ∧
      optionsQ [] vDefn ["class"] = .keyList ["warrior", "mage"] ∧
      choose vDefn [] ["class"] (.str "warrior") =
        .error (.invalidChoice ["class"] (.str "warrior") none)) := by
  decide

/-- C3, amended: for a valid builder and an unset path listed by fields()
that _choiceConfig resolves to an enumerated spec without a validation
predicate, options returns exactly the option-name keys, and choosing
any one of them succeeds. -/
theorem c3_roundtrip {defn : Fields} {cs : Choices} {p : Path}
    {fl : List Path} {opts : List (String × Fields)} {r : Bool}
    (hV : ValidB defn cs) (hp : jsGet cs p = none)
    (hfl : fieldsQ cs defn = some fl) (hmem : p ∈ fl)
    (hcc : choiceConfig cs defn p = .found (.enm opts r none)) :
    optionsQ cs defn p = .keyList (keysOf opts) ∧
    ∀ k, k ∈ keysOf opts →
      choose defn cs p (.str k) = .ok (jsSet cs p (.str k)) := by
  constructor
  · unfold optionsQ
    simp only [hcc]
  · intro k hk
    rw [choose_eq_applyOne hV hp]
    refine applyOne_of_checks hfl hmem hcc ?_
    simpa [valueOkFor, typeCheckOk, vruleOk, FieldSpec.vrule, valInKeys]
      using hk

/-- Witness for the amended C3: the class field of the fresh scenario
builder. -/
theorem c3_roundtrip_witness :
    optionsQ [] scenarioDefn ["class"] =
      .keyList (keysOf [("warrior", ([] : Fields)),
        ("mage", [("spell", FieldSpec.lit .STRING true none)])]) ∧
    ∀ k, k ∈ keysOf [("warrior", ([] : Fields)),
        ("mage", [("spell", FieldSpec.lit .STRING true none)])] →
      choose scenarioDefn [] ["class"] (.str k) =
        .ok (jsSet [] ["class"] (.str k)) :=
  c3_roundtrip ⟨by decide, by decide⟩ (by decide)
    (show fieldsQ [] scenarioDefn = some [["name"], ["class"]] by decide)
    (by decide)
    (show choiceConfig [] scenarioDefn ["class"] =
      .found (.enm [("warrior", []),
        ("mage", [("spell", .lit .STRING true none)])] true none) from rfl)

/-- C4: every ChoiceSet built by construct satisfies the invariant (each
recorded path resolves through the recorded ancestor choices to a spec,
the stored value passes the spec's typeof or option-membership check and
its validation predicate when declared), and every choose on a valid
builder preserves it. -/
theorem c4_invariant {defn : Fields} {l : List (Path × JSValue)} {m : Choices}
    (hwf : wfFields defn = true) (hnd : (keysOf l).Nodup)
    (hok : constructB defn l = .ok m) :
    (∀ p v, (p, v) ∈ m →
      ∃ spec, choiceConfig m defn p = .found spec ∧
        typeCheckOk spec v = true ∧ vruleOk spec v = true) ∧
    (∀ cs p v m2, ValidB defn cs → choose defn cs p v = .ok m2 →
      ∀ q w, (q, w) ∈ m2 →
        ∃ spec, choiceConfig m2 defn q = .found spec ∧
          typeCheckOk spec w = true ∧ vruleOk spec w = true) := by
  constructor
  · intro p v hm
    obtain ⟨spec, hcc, hok2⟩ := constructB_inv hwf hnd hok p v hm
    exact ⟨spec, hcc, by simpa [valueOkFor, Bool.and_eq_true] using hok2⟩
  · intro cs p v m2 hV hch q w hm
    have hV2 := validB_of_choose hV hch
    obtain ⟨spec, hcc, hok2⟩ := validB_inv hwf hV2 q w hm
    exact ⟨spec, hcc, by simpa [valueOkFor, Bool.and_eq_true] using hok2⟩

/-- Witness for C4 at the scenario builder with both choices made. -/
theorem c4_invariant_witness :
    ∃ spec, choiceConfig scenarioCS2 scenarioDefn ["class", "spell"] =
        .found spec ∧
      typeCheckOk spec (.str "fireball") = true ∧
      vruleOk spec (.str "fireball") = true :=
  (c4_invariant (by decide) (by decide)
      (by decide : constructB scenarioDefn scenarioCS2 = .ok scenarioCS2)).1
    ["class", "spell"] (.str "fireball") (by decide)

/-- C5: when validation rejects a (path, value) pair against a valid
builder — the path is not among the paths listed by fields(), or it
resolves to a spec whose checks the value fails, whether the path is
fresh or already recorded — choose raises InvalidField respectively
InvalidChoice and returns no builder, and the ChoiceSet it was given is
a pure value the call never alters; likewise a failing construct: when
the entries so far succeeded and the next entry fails the same checks
against the choices applied so far, the whole construct raises that
entry's InvalidField or InvalidChoice and returns no builder. -/
theorem c5_fail_clean {defn : Fields} {cs : Choices} (p : Path) (v : JSValue)
    {fl : List Path}
    (hwf : wfFields defn = true) (hV : ValidB defn cs)
    (hfl : fieldsQ cs defn = some fl)
    (hfail : p ∉ fl ∨ ∃ spec, choiceConfig cs defn p = .found spec ∧
      valueOkFor spec v = false) :
    ((choose defn cs p v = .error (.invalidField p) ∨
        ∃ rsn, choose defn cs p v = .error (.invalidChoice p v rsn)) ∧
      ∀ m, choose defn cs p v ≠ .ok m) ∧
    ∀ l1 p2 v2 l2 m gl, construct defn l1 [] = .ok m →
      fieldsQ m defn = some gl →
      (p2 ∉ gl ∨ ∃ spec, choiceConfig m defn p2 = .found spec ∧
        valueOkFor spec v2 = false) →
      (constructB defn (l1 ++ (p2, v2) :: l2) = .error (.invalidField p2) ∨
        ∃ rsn, constructB defn (l1 ++ (p2, v2) :: l2) =
          .error (.invalidChoice p2 v2 rsn)) ∧
      ∀ m2, constructB defn (l1 ++ (p2, v2) :: l2) ≠ .ok m2 := by
  constructor
  · have hmain : choose defn cs p v = .error (.invalidField p) ∨
        ∃ rsn, choose defn cs p v = .error (.invalidChoice p v rsn) := by
      by_cases hmem : p ∈ fl
      · rcases hfail with hnm | ⟨spec, hcc, hbad⟩
        · exact absurd hmem hnm
        · obtain ⟨cs0, fl0, hfl0, hmem0, hcc0, hred⟩ :=
            choose_resolved_step hwf hV hfl hmem hcc
          obtain ⟨rsn, herr⟩ := applyOne_value_fail hfl0 hmem0 hcc0 hbad
          exact Or.inr ⟨rsn, hred v _ herr⟩
      · exact Or.inl (choose_fail_field hV hfl hmem v)
    refine ⟨hmain, ?_⟩
    intro m hm
    rcases hmain with h | ⟨rsn, h⟩ <;> rw [hm] at h <;> simp at h
  · intro l1 p2 v2 l2 m gl hm hgl hfail2
    have hmain2 : constructB defn (l1 ++ (p2, v2) :: l2) =
          .error (.invalidField p2) ∨
        ∃ rsn, constructB defn (l1 ++ (p2, v2) :: l2) =
          .error (.invalidChoice p2 v2 rsn) := by
      by_cases hmem2 : p2 ∈ gl
      · rcases hfail2 with hnm | ⟨spec, hcc2, hbad⟩
        · exact absurd hmem2 hnm
        · obtain ⟨rsn, herr⟩ := applyOne_value_fail hgl hmem2 hcc2 hbad
          exact Or.inr ⟨rsn, constructB_mid_error hm herr⟩
      · exact Or.inl (constructB_mid_error hm
          (applyOne_invalidField hgl hmem2))
    refine ⟨hmain2, ?_⟩
    intro m2 hm2
    rcases hmain2 with h | ⟨rsn, h⟩ <;> rw [hm2] at h <;> simp at h

/-- Witness for C5: overwriting the recorded class choice of the scenario
builder with a non-option value fails cleanly, and a construct whose
first entry carries a number for the string field name fails cleanly. -/
theorem c5_fail_clean_witness :
    ((choose scenarioDefn scenarioCS ["class"] (.num 3) =
        .error (.invalidField ["class"]) ∨
      ∃ rsn, choose scenarioDefn scenarioCS ["class"] (.num 3) =
        .error (.invalidChoice ["class"] (.num 3) rsn)) ∧
      ∀ m, choose scenarioDefn scenarioCS ["class"] (.num 3) ≠ .ok m) ∧
    ((constructB scenarioDefn [(["name"], .num 5)] =
        .error (.invalidField ["name"]) ∨
      ∃ rsn, constructB scenarioDefn [(["name"], .num 5)] =
        .error (.invalidChoice ["name"] (.num 5) rsn)) ∧
      ∀ m2, constructB scenarioDefn [(["name"], .num 5)] ≠ .ok m2) :=
  ⟨(c5_fail_clean ["class"] (.num 3) (by decide) ⟨by decide, by decide⟩
      (show fieldsQ scenarioCS scenarioDefn =
          some [["name"], ["class"], ["class", "spell"]] by decide)
      (Or.inr ⟨.enm [("warrior", []),
          ("mage", [("spell", .lit .STRING true none)])] true none,
        rfl, by decide⟩)).1,
   (c5_fail_clean ["class"] (.num 3) (by decide) ⟨by decide, by decide⟩
      (show fieldsQ scenarioCS scenarioDefn =
          some [["name"], ["class"], ["class", "spell"]] by decide)
      (Or.inr ⟨.enm [("warrior", []),
          ("mage", [("spell", .lit .STRING true none)])] true none,
        rfl, by decide⟩)).2
     [] ["name"] (.num 5) [] [] [["name"], ["class"]] rfl
     (show fieldsQ [] scenarioDefn = some [["name"], ["class"]] by decide)
     (Or.inr ⟨.lit .STRING true none, rfl, by decide⟩)⟩

/-- C6: a successful choose returns a new builder whose ChoiceSet is the
old one with the path set, agreeing with the old builder everywhere
else, and both are valid builders; the old ChoiceSet is a pure value the
call does not modify, so get on it is unchanged. -/
theorem c6_immutability {defn : Fields} {cs : Choices} {p : Path}
    {v : JSValue} {m : Choices}
    (hV : ValidB defn cs) (h : choose defn cs p v = .ok m) :
    m = jsSet cs p v ∧ getQ m p = some v ∧
    (∀ q, q ≠ p → getQ m q = getQ cs q) ∧ ValidB defn cs ∧ ValidB defn m := by
  have hm := choose_ok_out hV h
  refine ⟨hm, ?_, ?_, hV, validB_of_choose hV h⟩
  · rw [hm]
    exact jsGet_jsSet_self
  · intro q hq
    rw [hm]
    exact jsGet_jsSet_ne hq

/-- Witness for C6: choosing mage for class on the fresh scenario
builder. -/
theorem c6_immutability_witness :
    scenarioCS = jsSet [] ["class"] (.str "mage") ∧
    getQ scenarioCS ["class"] = some (.str "mage") ∧
    (∀ q, q ≠ ["class"] → getQ scenarioCS q = getQ [] q) ∧
    ValidB scenarioDefn [] ∧ ValidB scenarioDefn scenarioCS :=
  c6_immutability ⟨by decide, by decide⟩
    (by decide : choose scenarioDefn [] ["class"] (.str "mage") =
      .ok scenarioCS)

/-- C7: validation applies its checks in the fixed order reachability,
literal-type match, option membership, custom predicate — for recorded
and unset paths alike, and for the constructor loop as well as choose: a
path not among fields() fails with InvalidField carrying the path for
every value; a reachable path resolving to a literal spec with a typeof
mismatch fails with InvalidChoice carrying the reason string; an
enumerated spec fails non-membership with InvalidChoice carrying the
one-of reason regardless of any predicate; a falsy predicate after a
passing type check fails with InvalidChoice carrying no reason; the
constructor applies exactly the same checks, with the same errors, to
each entry against the choices applied so far. -/
theorem c7_validation_order {defn : Fields} {cs : Choices} (p : Path)
    {fl : List Path}
    (hwf : wfFields defn = true) (hV : ValidB defn cs)
    (hfl : fieldsQ cs defn = some fl) :
    (p ∉ fl → ∀ v, choose defn cs p v = .error (.invalidField p)) ∧
    (∀ v r vr, p ∈ fl →
      choiceConfig cs defn p = .found (.lit .STRING r vr) →
      typeofStr v ≠ "string" →
      choose defn cs p v =
        .error (.invalidChoice p v (some "must be string"))) ∧
    (∀ v r vr, p ∈ fl →
      choiceConfig cs defn p = .found (.lit .NUMBER r vr) →
      typeofStr v ≠ "number" →
      choose defn cs p v =
        .error (.invalidChoice p v (some "must be number"))) ∧
    (∀ v opts r vr, p ∈ fl →
      choiceConfig cs defn p = .found (.enm opts r vr) →
      valInKeys opts v = false →
      choose defn cs p v =
        .error (.invalidChoice p v (some (oneOfReason opts)))) ∧
    (∀ v spec f, p ∈ fl → choiceConfig cs defn p = .found spec →
      typeCheckOk spec v = true → spec.vrule = some f → f v = false →
      choose defn cs p v = .error (.invalidChoice p v none)) ∧
    (∀ l1 p2 v2 l2 m gl, construct defn l1 [] = .ok m →
      fieldsQ m defn = some gl →
      (p2 ∉ gl →
        constructB defn (l1 ++ (p2, v2) :: l2) =
          .error (.invalidField p2)) ∧
      (∀ r vr, p2 ∈ gl →
        choiceConfig m defn p2 = .found (.lit .STRING r vr) →
        typeofStr v2 ≠ "string" →
        constructB defn (l1 ++ (p2, v2) :: l2) =
          .error (.invalidChoice p2 v2 (some "must be string"))) ∧
      (∀ r vr, p2 ∈ gl →
        choiceConfig m defn p2 = .found (.lit .NUMBER r vr) →
        typeofStr v2 ≠ "number" →
        constructB defn (l1 ++ (p2, v2) :: l2) =
          .error (.invalidChoice p2 v2 (some "must be number"))) ∧
      (∀ opts r vr, p2 ∈ gl →
        choiceConfig m defn p2 = .found (.enm opts r vr) →
        valInKeys opts v2 = false →
        constructB defn (l1 ++ (p2, v2) :: l2) =
          .error (.invalidChoice p2 v2 (some (oneOfReason opts)))) ∧
      (∀ spec f, p2 ∈ gl → choiceConfig m defn p2 = .found spec →
        typeCheckOk spec v2 = true → spec.vrule = some f → f v2 = false →
        constructB defn (l1 ++ (p2, v2) :: l2) =
          .error (.invalidChoice p2 v2 none))) := by
  refine ⟨?_, ?_, ?_, ?_, ?_, ?_⟩
  · intro hnm v
    exact choose_fail_field hV hfl hnm v
  · intro v r vr hmem hcc ht
    obtain ⟨cs0, fl0, hfl0, hmem0, hcc0, hred⟩ :=
      choose_resolved_step hwf hV hfl hmem hcc
    exact hred v _ (applyOne_string_mismatch hfl0 hmem0 hcc0 ht)
  · intro v r vr hmem hcc ht
    obtain ⟨cs0, fl0, hfl0, hmem0, hcc0, hred⟩ :=
      choose_resolved_step hwf hV hfl hmem hcc
    exact hred v _ (applyOne_number_mismatch hfl0 hmem0 hcc0 ht)
  · intro v opts r vr hmem hcc ht
    obtain ⟨cs0, fl0, hfl0, hmem0, hcc0, hred⟩ :=
      choose_resolved_step hwf hV hfl hmem hcc
    exact hred v _ (applyOne_enm_mismatch hfl0 hmem0 hcc0 ht)
  · intro v spec f hmem hcc htc hvr hf
    obtain ⟨cs0, fl0, hfl0, hmem0, hcc0, hred⟩ :=
      choose_resolved_step hwf hV hfl hmem hcc
    exact hred v _ (applyOne_vrule_fail hfl0 hmem0 hcc0 htc hvr hf)
  · intro l1 p2 v2 l2 m gl hm hgl
    refine ⟨?_, ?_, ?_, ?_, ?_⟩
    · intro hnm
      exact constructB_mid_error hm (applyOne_invalidField hgl hnm)
    · intro r vr hmem2 hcc2 ht
      exact constructB_mid_error hm
        (applyOne_string_mismatch hgl hmem2 hcc2 ht)
    · intro r vr hmem2 hcc2 ht
      exact constructB_mid_error hm
        (applyOne_number_mismatch hgl hmem2 hcc2 ht)
    · intro opts r vr hmem2 hcc2 ht
      exact constructB_mid_error hm
        (applyOne_enm_mismatch hgl hmem2 hcc2 ht)
    · intro spec f hmem2 hcc2 htc hvr hf
      exact constructB_mid_error hm
        (applyOne_vrule_fail hgl hmem2 hcc2 htc hvr hf)

/-- Witness for C7: the three fresh-path errors of the scenario builder
in check order, the same membership error when overwriting the recorded
class choice, and the constructor failing the membership check on the
second entry of its mapping. -/
theorem c7_validation_order_witness :
    choose scenarioDefn [] ["unknownField"] (.num 1) =
      .error (.invalidField ["unknownField"]) ∧
    choose scenarioDefn [] ["name"] (.num 7) =
      .error (.invalidChoice ["name"] (.num 7) (some "must be string")) ∧
    choose scenarioDefn [] ["class"] (.str "rogue") =
      .error (.invalidChoice ["class"] (.str "rogue")
        (some "must be one of [warrior, mage]")) ∧
    choose scenarioDefn scenarioCS ["class"] (.str "rogue") =
      .error (.invalidChoice ["class"] (.str "rogue")
        (some "must be one of [warrior, mage]")) ∧
    constructB scenarioDefn [(["name"], .str "bob"), (["class"], .num 9)] =
      .error (.invalidChoice ["class"] (.num 9)
        (some "must be one of [warrior, mage]")) :=
  ⟨(c7_validation_order ["unknownField"] (by decide) ⟨by decide, by decide⟩
      (show fieldsQ [] scenarioDefn = some [["name"], ["class"]]
        by decide)).1 (by decide) (.num 1),
   (c7_validation_order ["name"] (by decide) ⟨by decide, by decide⟩
      (show fieldsQ [] scenarioDefn = some [["name"], ["class"]]
        by decide)).2.1
      (.num 7) true none (by decide) rfl (by decide),
   (c7_validation_order ["class"] (by decide) ⟨by decide, by decide⟩
      (show fieldsQ [] scenarioDefn = some [["name"], ["class"]]
        by decide)).2.2.2.1
      (.str "rogue") [("warrior", []),
        ("mage", [("spell", .lit .STRING true none)])] true none
      (by decide) rfl (by decide),
   (c7_validation_order ["class"] (by decide) ⟨by decide, by decide⟩
      (show fieldsQ scenarioCS scenarioDefn =
          some [["name"], ["class"], ["class", "spell"]] by decide)).2.2.2.1
      (.str "rogue") [("warrior", []),
        ("mage", [("spell", .lit .STRING true none)])] true none
      (by decide) rfl (by decide),
   ((c7_validation_order ["name"] (by decide) ⟨by decide, by decide⟩
      (show fieldsQ [] scenarioDefn = some [["name"], ["class"]]
        by decide)).2.2.2.2.2
      [(["name"], .str "bob")] ["class"] (.num 9) []
      [(["name"], .str "bob")] [["name"], ["class"]]
      (by decide)
      (show fieldsQ [(["name"], .str "bob")] scenarioDefn =
          some [["name"], ["class"]] by decide)).2.2.2.1
      [("warrior", []),
        ("mage", [("spell", .lit .STRING true none)])] true none
      (by decide) rfl (by decide)⟩

/-- C8: the constructor applies the entries in iteration order, each
validated against the choices applied so far; a path of two or more
segments placed before everything else is not yet reachable, so
construct fails with InvalidField for it, while the ancestor-first order
succeeds (scenario). -/
theorem c8_order (defn : Fields) :
    (∀ p v rest, 2 ≤ p.length →
      constructB defn ((p, v) :: rest) = .error (.invalidField p)) ∧
    constructB scenarioDefn
      [(["class", "spell"], .str "fireball"), (["class"], .str "mage")] =
      .error (.invalidField ["class", "spell"]) ∧
    constructB scenarioDefn
      [(["class"], .str "mage"), (["class", "spell"], .str "fireball")] =
      .ok [(["class"], .str "mage"),
        (["class", "spell"], .str "fireball")] := by
  refine ⟨?_, by decide, by decide⟩
  intro p v rest hlen
  have hnm : p ∉ defn.map (fun kv => [kv.1]) := by
    intro hm
    obtain ⟨kv, -, hkv⟩ := List.mem_map.mp hm
    rw [← hkv] at hlen
    simp at hlen
  rw [constructB, construct]
  simp only [applyOne_invalidField fieldsQ_nil_choices hnm]

/-- Witness for C8: a descendant-first singleton on the scenario
schema. -/
theorem c8_order_witness :
    constructB scenarioDefn
      [(["class", "spell"], .str "fireball"), (["class"], .str "mage")] =
      .error (.invalidField ["class", "spell"]) ∧
    constructB scenarioDefn [(["name", "x"], .num 3)] =
      .error (.invalidField ["name", "x"]) :=
  ⟨(c8_order scenarioDefn).2.1,
   (c8_order scenarioDefn).1 ["name", "x"] (.num 3) [] (by decide)⟩

/-- C9: every path missing() reports passed the unset filter, so get on
it is undefined; missing never lists a recorded path. -/
theorem c9_missing_unset {defn : Fields} {cs : Choices} {res : List Path}
    (h : missingQ cs defn = .ok res) :
    ∀ p, p ∈ res → getQ cs p = none :=
  fun p hp => missingGo_unset h p hp

/-- Witness for C9 at the scenario builder with class chosen. -/
theorem c9_missing_unset_witness :
    getQ scenarioCS ["class", "spell"] = none :=
  c9_missing_unset
    (by decide : missingQ scenarioCS scenarioDefn =
      .ok [["name"], ["class", "spell"]])
    ["class", "spell"] (by decide)

/-- C10: on a builder recording an enumerated root choice followed by a
descendant only reachable through it, choosing a different valid option
re-validates the merged ChoiceSet in insertion order and fails with
InvalidField for the now-unreachable stale descendant. -/
theorem c10_stale_descendant {defn : Fields} {ak : String}
    {opts : List (String × Fields)} {r : Bool} {o1v o2v w : JSValue}
    {d : Path} {post : Choices} {fl2 : List Path}
    (hlk : lookupA defn ak = some (.enm opts r none))
    (hv : valInKeys opts o2v = true)
    (hfl2 : fieldsQ [([ak], o2v)] defn = some fl2) (hd : d ∉ fl2) :
    choose defn (([ak], o1v) :: (d, w) :: post) [ak] o2v =
      .error (.invalidField d) := by
  unfold choose constructB
  rw [show jsSet (([ak], o1v) :: (d, w) :: post) [ak] o2v =
      ([ak], o2v) :: (d, w) :: post from by rw [jsSet, if_pos rfl]]
  rw [construct]
  have hmem : [ak] ∈ defn.map (fun kv => [kv.1]) :=
    List.mem_map.mpr ⟨(ak, .enm opts r none), lookupA_mem hlk, rfl⟩
  have hcc : choiceConfig ([] : Choices) defn [ak] =
      .found (.enm opts r none) := by
    rw [choiceConfig]
    show (match walkCC [] defn [] ak with
      | some sp => CCRes.found sp
      | none => CCRes.notFound) = _
    rw [walkCC, hlk]
  have h1 : applyOne defn [] [ak] o2v = .ok [([ak], o2v)] :=
    applyOne_of_checks fieldsQ_nil_choices hmem hcc
      (by simp [valueOkFor, typeCheckOk, vruleOk, FieldSpec.vrule, hv])
  simp only [h1]
  rw [construct]
  simp only [applyOne_invalidField hfl2 hd]

/-- Witness for C10: switching class from mage to warrior with the spell
still recorded. -/
theorem c10_stale_descendant_witness :
    choose scenarioDefn scenarioCS2 ["class"] (.str "warrior") =
      .error (.invalidField ["class", "spell"]) :=
  c10_stale_descendant rfl (by decide)
    (by decide : fieldsQ [(["class"], .str "warrior")] scenarioDefn =
      some [["name"], ["class"]])
    (by decide)

end Persona
